import Mathlib

set_option autoImplicit false

/-!
Verification of the SSA-construction core of the sea_ir compiler middle end
(`compiler/sea_ir/sea.h`).  Instruction nodes are modelled by numeric ids;
a nullable C++ pointer becomes an `Option`.  Functions whose C++ body can
abort (a failed `DCHECK`, an out-of-range `.at`) return an `Option`, with
`none` marking the abort.
-/

/-! ### PhiInstructionNode -/

/-- A phi instruction: its register number and, per predecessor position, a
nullable pointer to the vector of defining instructions flowing in from that
edge (`std::vector<std::vector<InstructionNode*>*> definition_edges_`).
`none` in the list is a NULL inner pointer. -/
structure PhiInstructionNode where
  register_no : Int
  definition_edges : List (Option (List Nat))
  deriving Repr, DecidableEq

/-- The constructor `PhiInstructionNode(int register_no)`: empty edge vector. -/
def PhiInstructionNode.mkPhi (register_no : Int) : PhiInstructionNode :=
  ⟨register_no, []⟩

/-- `definition_edges_.resize(predecessor_id+1, NULL)` when too short. -/
def padTo (es : List (Option (List Nat))) (p : Nat) : List (Option (List Nat)) :=
  if es.length < p + 1 then es ++ List.replicate (p + 1 - es.length) none else es

/-- `PhiInstructionNode::RenameToSSA(reg_no, definition, predecessor_id)`:
`DCHECK(NULL != definition)` aborts on a null definition; otherwise the edge
vector is grown to cover `predecessor_id`, a missing inner vector is allocated,
and `definition` is appended to it. -/
def PhiInstructionNode.RenameToSSA (phi : PhiInstructionNode) (reg_no : Int)
    (definition : Option Nat) (predecessor_id : Nat) : Option PhiInstructionNode :=
  match definition with
  | none => none
  | some d =>
    let edges := padTo phi.definition_edges predecessor_id
    let slot := (edges.getD predecessor_id none).getD []
    some { phi with definition_edges := edges.set predecessor_id (some (slot ++ [d])) }

/-- `PhiInstructionNode::GetSSAUses(predecessor_pos)`: `definition_edges_.at(pos)`.
The outer `Option` is the `std::out_of_range` abort of `.at`; the inner
`Option` is the (possibly NULL) pointer stored at that position. -/
def PhiInstructionNode.GetSSAUses (phi : PhiInstructionNode) (predecessor_pos : Nat) :
    Option (Option (List Nat)) :=
  phi.definition_edges[predecessor_pos]?

/-- The collection of definitions recorded at edge `p` (empty when the slot is
missing or NULL). -/
def slotAt (phi : PhiInstructionNode) (p : Nat) : List Nat :=
  (phi.definition_edges.getD p none).getD []

/-- A sequence of `RenameToSSA` calls feeding the definitions `ds`, in order,
all on predecessor edge `p`. -/
def renameCalls (phi : PhiInstructionNode) (reg : Int) (ds : List Nat) (p : Nat) :
    Option PhiInstructionNode :=
  ds.foldlM (fun φ d => φ.RenameToSSA reg (some d) p) phi

theorem padTo_length (es : List (Option (List Nat))) (p : Nat) :
    (padTo es p).length = max es.length (p + 1) := by
  unfold padTo
  split
  · rw [List.length_append, List.length_replicate]
    omega
  · omega

theorem padTo_getElem_lt (es : List (Option (List Nat))) (p q : Nat) (h : q < es.length) :
    (padTo es p)[q]? = es[q]? := by
  unfold padTo
  split
  · exact List.getElem?_append_left h
  · rfl

theorem padTo_getElem_pad (es : List (Option (List Nat))) (p q : Nat)
    (h1 : es.length ≤ q) (h2 : q ≤ p) :
    (padTo es p)[q]? = some none := by
  unfold padTo
  split
  · rw [List.getElem?_append_right h1]
    have hq : q - es.length < p + 1 - es.length := by omega
    rw [List.getElem?_eq_getElem (by simpa using hq)]
    simp
  · omega

theorem getElem?_some_lt {α : Type} (l : List α) (i : Nat) (x : α) (h : l[i]? = some x) :
    i < l.length := by
  by_contra hc
  rw [List.getElem?_eq_none (by omega)] at h
  exact Option.noConfusion h

/-- Invariant while `RenameToSSA` is called repeatedly on edge `p` of a phi that
started with an empty edge vector: slot `p` holds exactly the definitions fed so
far, and every lower slot is still the NULL pointer left by `resize`. -/
def EdgeInv (phi : PhiInstructionNode) (p : Nat) (l : List Nat) : Prop :=
  phi.definition_edges[p]? = some (some l) ∧
    ∀ q, q < p → phi.definition_edges[q]? = some none

theorem renameToSSA_first (r : Int) (d : Nat) (p : Nat) :
    ∃ phi', (PhiInstructionNode.mkPhi r).RenameToSSA r (some d) p = some phi' ∧
      EdgeInv phi' p [d] := by
  refine ⟨_, rfl, ?_, ?_⟩
  · show ((padTo [] p).set p _)[p]? = _
    rw [List.getElem?_set_eq_of_lt _ (by rw [padTo_length]; simp)]
    have hnone : (padTo [] p).getD p none = none := by
      rw [List.getD_eq_getElem?_getD, padTo_getElem_pad [] p p (by simp) (le_refl p)]
      rfl
    simp only [PhiInstructionNode.mkPhi]
    rw [hnone]
    rfl
  · intro q hq
    show ((padTo [] p).set p _)[q]? = _
    rw [List.getElem?_set_ne (by omega)]
    exact padTo_getElem_pad [] p q (by simp) (by omega)

theorem renameToSSA_next (phi : PhiInstructionNode) (r : Int) (d : Nat) (p : Nat)
    (l : List Nat) (hinv : EdgeInv phi p l) :
    ∃ phi', phi.RenameToSSA r (some d) p = some phi' ∧ EdgeInv phi' p (l ++ [d]) := by
  obtain ⟨hp, hlow⟩ := hinv
  have hlen : p < phi.definition_edges.length := getElem?_some_lt _ _ _ hp
  have hpad : padTo phi.definition_edges p = phi.definition_edges := by
    unfold padTo; rw [if_neg (by omega)]
  refine ⟨_, rfl, ?_, ?_⟩
  · show ((padTo phi.definition_edges p).set p
      (some (((padTo phi.definition_edges p).getD p none).getD [] ++ [d])))[p]? = _
    rw [hpad, List.getElem?_set_eq_of_lt _ hlen, List.getD_eq_getElem?_getD, hp]
    rfl
  · intro q hq
    show ((padTo phi.definition_edges p).set p _)[q]? = _
    rw [hpad, List.getElem?_set_ne (by omega)]
    exact hlow q hq

theorem renameCalls_inv (r : Int) (p : Nat) (ds : List Nat) :
    ∀ (phi : PhiInstructionNode) (l : List Nat), EdgeInv phi p l →
      ∃ phi', renameCalls phi r ds p = some phi' ∧ EdgeInv phi' p (l ++ ds) := by
  induction ds with
  | nil => intro phi l h; exact ⟨phi, rfl, by simpa using h⟩
  | cons d ds ih =>
    intro phi l h
    obtain ⟨phi1, hstep, hinv1⟩ := renameToSSA_next phi r d p l h
    obtain ⟨phi', hrest, hinv'⟩ := ih phi1 (l ++ [d]) hinv1
    refine ⟨phi', ?_, by simpa using hinv'⟩
    simp only [renameCalls, List.foldlM] at hrest ⊢
    rw [hstep]
    exact hrest

/-- C9: `RenameToSSA` with a NULL `definition` trips the
`DCHECK(NULL != definition)` and aborts; with a non-NULL definition the body
(resize, allocate-if-missing, push_back) always completes, for every phi,
register and predecessor index. -/
theorem renameToSSA_null_definition_aborts (phi : PhiInstructionNode) (reg : Int)
    (d : Nat) (p : Nat) :
    phi.RenameToSSA reg none p = none ∧
      (phi.RenameToSSA reg (some d) p).isSome = true := by
  exact ⟨rfl, rfl⟩

/-- C10: each successful `RenameToSSA` call appends its definition to the
collection at edge `p`; starting from a freshly constructed phi, a sequence of
calls feeding `d :: ds` on edge `p` leaves `GetSSAUses p` equal to exactly that
list in call order, with every lower edge still the NULL pointer — so the
one-element true-SSA shape holds exactly when the call was made exactly once. -/
theorem renameToSSA_accumulates_in_call_order (r : Int) (p : Nat) (d : Nat)
    (ds : List Nat) (phi : PhiInstructionNode) :
    (∃ phi2, phi.RenameToSSA r (some d) p = some phi2 ∧
        slotAt phi2 p = slotAt phi p ++ [d]) ∧
    (∃ phi', renameCalls (PhiInstructionNode.mkPhi r) r (d :: ds) p = some phi' ∧
        phi'.GetSSAUses p = some (some (d :: ds)) ∧
        ∀ q, q < p → phi'.GetSSAUses q = some none) := by
  constructor
  · refine ⟨_, rfl, ?_⟩
    unfold slotAt
    have hplen : p < (padTo phi.definition_edges p).length := by
      rw [padTo_length]; omega
    rw [List.getD_eq_getElem?_getD, List.getElem?_set_eq_of_lt _ hplen]
    have : (padTo phi.definition_edges p).getD p none = phi.definition_edges.getD p none := by
      rw [List.getD_eq_getElem?_getD, List.getD_eq_getElem?_getD]
      rcases Nat.lt_or_ge p phi.definition_edges.length with hlt | hge
      · rw [padTo_getElem_lt _ _ _ hlt]
      · rw [padTo_getElem_pad _ _ _ hge (le_refl p), List.getElem?_eq_none hge]
        rfl
    rw [this]
    rfl
  · obtain ⟨phi0, hfirst, hinv0⟩ := renameToSSA_first r d p
    obtain ⟨phi', hrest, hp, hlow⟩ := renameCalls_inv r p ds phi0 [d] hinv0
    refine ⟨phi', ?_, hp, hlow⟩
    simp only [renameCalls, List.foldlM] at hrest ⊢
    rw [hfirst]
    exact hrest

/-! ### Reaching definitions -/

/-- A method CFG as the dataflow passes see it: regions are `0, …, n-1` with
region `0` the entry, successor lists as wired by `SeaGraph::AddEdge`, the
finite universe of register numbers occurring in the method, and the
downward-exposed definition map of each region (instruction ids), i.e. the
state after `ComputeDownExposedDefs` ran (the precondition of
`UpdateReachingDefs`). -/
structure RDGraph where
  n : Nat
  succs : Nat → List Nat
  regs : List Int
  deDefs : Nat → Int → Option Nat

/-- Predecessor set of region `b`, as induced by the successor wiring
(`AddEdge` keeps successor and predecessor lists mutually consistent). -/
def preds (g : RDGraph) (b : Nat) : List Nat :=
  (List.range g.n).filter (fun a => b ∈ g.succs a)

/-- A reaching-definitions map: for each register of `g.regs` (positionally) the
set of defining-instruction ids reaching the region. An empty set stands for a
register with no entry in the `std::map`. -/
abbrev RegMap := List (Finset Nat)

def emptyRegMap (g : RDGraph) : RegMap :=
  g.regs.map (fun _ => ∅)

/-- Pointwise union of two reaching maps. -/
def unionMaps (m1 m2 : RegMap) : RegMap :=
  List.zipWith (· ∪ ·) m1 m2

/-- Overwrite the entries of registers that this region defines with the
singleton holding the region's downward-exposed definition. -/
def applyDeDefs (g : RDGraph) (b : Nat) (m : RegMap) : RegMap :=
  (List.zip g.regs m).map (fun rm =>
    match g.deDefs b rm.1 with
    | some d => {d}
    | none => rm.2)

/-- Modelled from the spec: the body of `Region::UpdateReachingDefs` is not in
the header. §4.1: "one fixpoint iteration step. New reaching set = union of
predecessors' reaching sets, with this block's downward-exposed definitions of
a register replacing (not unioning with) any incoming definitions of that same
register. Returns whether the set changed." -/
def newReachingDefs (g : RDGraph) (reach : Nat → RegMap) (b : Nat) : RegMap :=
  applyDeDefs g b ((preds g b).foldl (fun acc p => unionMaps acc (reach p)) (emptyRegMap g))

/-- One call of `UpdateReachingDefs` on region `b`: the updated global
reaching-definitions state together with the returned changed flag. -/
def UpdateReachingDefs (g : RDGraph) (reach : Nat → RegMap) (b : Nat) :
    (Nat → RegMap) × Bool :=
  let nr := newReachingDefs g reach b
  (fun x => if x = b then nr else reach x, decide (nr ≠ reach b))

/-- Modelled from the spec: the driving loop of `SeaGraph::ComputeReachingDefs`
invokes `UpdateReachingDefs` on every region of `order` and remembers whether
any call reported a change. -/
def passReachingDefs (g : RDGraph) (reach : Nat → RegMap) (order : List Nat) :
    (Nat → RegMap) × Bool :=
  order.foldl (fun st b =>
    let r := UpdateReachingDefs g st.1 b
    (r.1, st.2 || r.2)) (reach, false)

theorem unionMaps_length (m1 m2 : RegMap) :
    (unionMaps m1 m2).length = min m1.length m2.length := by
  simp [unionMaps]

theorem unionMaps_getD (m1 m2 : RegMap) (i : Nat) (h1 : i < m1.length)
    (h2 : i < m2.length) :
    (unionMaps m1 m2).getD i ∅ = m1.getD i ∅ ∪ m2.getD i ∅ := by
  unfold unionMaps
  rw [List.getD_eq_getElem?_getD, List.getD_eq_getElem?_getD, List.getD_eq_getElem?_getD]
  rw [List.getElem?_zipWith]
  rw [List.getElem?_eq_getElem h1, List.getElem?_eq_getElem h2]
  rfl

theorem foldl_union_length (g : RDGraph) (reach : Nat → RegMap)
    (hlen : ∀ p, (reach p).length = g.regs.length) (ps : List Nat) (acc : RegMap)
    (hacc : acc.length = g.regs.length) :
    (ps.foldl (fun acc p => unionMaps acc (reach p)) acc).length = g.regs.length := by
  induction ps generalizing acc with
  | nil => simpa
  | cons p ps ih =>
    simp only [List.foldl_cons]
    exact ih _ (by rw [unionMaps_length, hlen, hacc]; omega)

theorem foldl_union_mem (g : RDGraph) (reach : Nat → RegMap)
    (hlen : ∀ p, (reach p).length = g.regs.length) (ps : List Nat) (acc : RegMap)
    (hacc : acc.length = g.regs.length) (i : Nat) (hi : i < g.regs.length) (x : Nat) :
    x ∈ (ps.foldl (fun acc p => unionMaps acc (reach p)) acc).getD i ∅ ↔
      x ∈ acc.getD i ∅ ∨ ∃ p ∈ ps, x ∈ (reach p).getD i ∅ := by
  induction ps generalizing acc with
  | nil => simp
  | cons p ps ih =>
    simp only [List.foldl_cons]
    rw [ih _ (by rw [unionMaps_length, hlen, hacc]; omega)]
    rw [unionMaps_getD _ _ i (by omega) (by rw [hlen]; omega)]
    simp only [Finset.mem_union, List.mem_cons]
    constructor
    · rintro ((h | h) | ⟨q, hq, h⟩)
      · exact Or.inl h
      · exact Or.inr ⟨p, Or.inl rfl, h⟩
      · exact Or.inr ⟨q, Or.inr hq, h⟩
    · rintro (h | ⟨q, (rfl | hq), h⟩)
      · exact Or.inl (Or.inl h)
      · exact Or.inl (Or.inr h)
      · exact Or.inr ⟨q, hq, h⟩

theorem emptyRegMap_length (g : RDGraph) : (emptyRegMap g).length = g.regs.length := by
  simp [emptyRegMap]

theorem emptyRegMap_getD (g : RDGraph) (i : Nat) :
    (emptyRegMap g).getD i ∅ = (∅ : Finset Nat) := by
  unfold emptyRegMap
  rw [List.getD_eq_getElem?_getD]
  rcases Nat.lt_or_ge i g.regs.length with h | h
  · rw [List.getElem?_eq_getElem (by simpa using h)]
    simp
  · rw [List.getElem?_eq_none (by simpa using h)]
    rfl

theorem applyDeDefs_getD (g : RDGraph) (b : Nat) (m : RegMap)
    (hm : m.length = g.regs.length) (i : Nat) (hi : i < g.regs.length) :
    (applyDeDefs g b m).getD i ∅ =
      match g.deDefs b (g.regs.getD i 0) with
      | some d => {d}
      | none => m.getD i ∅ := by
  unfold applyDeDefs
  rw [List.getD_eq_getElem?_getD]
  have hz : i < (List.zip g.regs m).length := by
    rw [List.length_zip]; omega
  rw [List.getElem?_map, List.getElem?_eq_getElem hz]
  rw [List.getElem_zip]
  rw [List.getD_eq_getElem?_getD, List.getD_eq_getElem?_getD,
    List.getElem?_eq_getElem hi, List.getElem?_eq_getElem (by omega : i < m.length)]
  rfl

theorem updateReachingDefs_state_at (g : RDGraph) (reach : Nat → RegMap) (b : Nat) :
    (UpdateReachingDefs g reach b).1 b = newReachingDefs g reach b := by
  simp [UpdateReachingDefs]

theorem update_false_id (g : RDGraph) (reach : Nat → RegMap) (b : Nat)
    (h : (UpdateReachingDefs g reach b).2 = false) :
    (UpdateReachingDefs g reach b).1 = reach := by
  have hnr : newReachingDefs g reach b = reach b := by
    by_contra hne
    simp [UpdateReachingDefs, hne] at h
  funext x
  simp only [UpdateReachingDefs]
  split
  · rename_i hx; rw [hnr, hx]
  · rfl

theorem pass_flag_mono (g : RDGraph) (order : List Nat) :
    ∀ (st : (Nat → RegMap) × Bool), st.2 = true →
      (order.foldl (fun st b =>
        let r := UpdateReachingDefs g st.1 b
        (r.1, st.2 || r.2)) st).2 = true := by
  induction order with
  | nil => intro st h; simpa using h
  | cons b rest ih =>
    intro st h
    simp only [List.foldl_cons]
    exact ih _ (by simp [h])

theorem pass_false_each (g : RDGraph) (order : List Nat) :
    ∀ (reach : Nat → RegMap),
      (order.foldl (fun st b =>
        let r := UpdateReachingDefs g st.1 b
        (r.1, st.2 || r.2)) (reach, false)).2 = false →
      (order.foldl (fun st b =>
        let r := UpdateReachingDefs g st.1 b
        (r.1, st.2 || r.2)) (reach, false)).1 = reach ∧
      ∀ b ∈ order, (UpdateReachingDefs g reach b).2 = false := by
  induction order with
  | nil => intro reach _; exact ⟨rfl, by simp⟩
  | cons b rest ih =>
    intro reach h
    simp only [List.foldl_cons, Bool.false_or] at h ⊢
    have hb : (UpdateReachingDefs g reach b).2 = false := by
      by_contra hc
      rw [Bool.not_eq_false] at hc
      have := pass_flag_mono g rest
        ((UpdateReachingDefs g reach b).1, (UpdateReachingDefs g reach b).2) (by simp [hc])
      rw [this] at h
      exact Bool.noConfusion h
    have hid : (UpdateReachingDefs g reach b).1 = reach := update_false_id g reach b hb
    rw [hb, hid] at h
    obtain ⟨hst, hall⟩ := ih reach h
    refine ⟨by rw [hb, hid]; exact hst, ?_⟩
    intro c hc
    rcases List.mem_cons.mp hc with rfl | hc'
    · exact hb
    · exact hall c hc'

/-- C5: one call of `UpdateReachingDefs` on a region whose downward-exposed
definitions are available sets that region's reaching-definitions map to the
union of its predecessors' reaching sets, except that a register this region
defines gets exactly the singleton of its downward-exposed definition,
replacing all incoming definitions; the returned flag is true if and only if
the region's reaching-definitions map changed. -/
theorem updateReachingDefs_characterization (g : RDGraph) (reach : Nat → RegMap)
    (b : Nat) (hlen : ∀ p, (reach p).length = g.regs.length) (i : Nat)
    (hi : i < g.regs.length) :
    (∀ d, g.deDefs b (g.regs.getD i 0) = some d →
        ((UpdateReachingDefs g reach b).1 b).getD i ∅ = {d}) ∧
    (g.deDefs b (g.regs.getD i 0) = none →
        ∀ x, x ∈ ((UpdateReachingDefs g reach b).1 b).getD i ∅ ↔
          ∃ p ∈ preds g b, x ∈ (reach p).getD i ∅) ∧
    ((UpdateReachingDefs g reach b).2 = true ↔
        (UpdateReachingDefs g reach b).1 b ≠ reach b) := by
  have hfoldlen : ((preds g b).foldl (fun acc p => unionMaps acc (reach p))
      (emptyRegMap g)).length = g.regs.length :=
    foldl_union_length g reach hlen _ _ (emptyRegMap_length g)
  have happ := applyDeDefs_getD g b
    ((preds g b).foldl (fun acc p => unionMaps acc (reach p)) (emptyRegMap g))
    hfoldlen i hi
  rw [updateReachingDefs_state_at]
  refine ⟨?_, ?_, ?_⟩
  · intro d hd
    unfold newReachingDefs
    rw [happ, hd]
  · intro hd x
    unfold newReachingDefs
    rw [happ, hd]
    rw [foldl_union_mem g reach hlen _ _ (emptyRegMap_length g) i hi x]
    rw [emptyRegMap_getD]
    simp
  · simp [UpdateReachingDefs]

/-- C6: once a full pass of `UpdateReachingDefs` over all regions reports no
change, the state is at the fixpoint: the pass left every region's
reaching-definitions map untouched, and re-invoking `UpdateReachingDefs` on any
region returns `false` and changes nothing. -/
theorem fixpoint_rerun_no_change (g : RDGraph) (reach : Nat → RegMap)
    (hfix : (passReachingDefs g reach (List.range g.n)).2 = false) :
    (passReachingDefs g reach (List.range g.n)).1 = reach ∧
      ∀ b, b < g.n → (UpdateReachingDefs g reach b).2 = false ∧
        (UpdateReachingDefs g reach b).1 = reach := by
  obtain ⟨hst, hall⟩ := pass_false_each g (List.range g.n) reach hfix
  refine ⟨hst, ?_⟩
  intro b hb
  have hb' : b ∈ List.range g.n := List.mem_range.mpr hb
  exact ⟨hall b hb', update_false_id g reach b (hall b hb')⟩

/-- A two-region method: the entry defines register 5 (instruction 7) and falls
through to region 1, which defines nothing. -/
def rdExample : RDGraph :=
  ⟨2, fun a => if a = 0 then [1] else [], [5],
    fun b r => if b = 0 then (if r = 5 then some 7 else none) else none⟩

def reachExample : Nat → RegMap := fun _ => [∅]

def reachFix : Nat → RegMap := fun _ => [({7} : Finset Nat)]

theorem updateReachingDefs_characterization_witness :
    (∀ p, (reachExample p).length = rdExample.regs.length) ∧ 0 < rdExample.regs.length ∧
      (rdExample.deDefs 1 (rdExample.regs.getD 0 0) = none →
        ∀ x, x ∈ ((UpdateReachingDefs rdExample reachExample 1).1 1).getD 0 ∅ ↔
          ∃ p ∈ preds rdExample 1, x ∈ (reachExample p).getD 0 ∅) :=
  ⟨fun _ => rfl, by decide,
    (updateReachingDefs_characterization rdExample reachExample 1
      (fun _ => rfl) 0 (by decide)).2.1⟩

theorem fixpoint_rerun_no_change_witness :
    (passReachingDefs rdExample reachFix (List.range 2)).2 = false ∧
      (UpdateReachingDefs rdExample reachFix 1).2 = false :=
  ⟨by decide,
    ((fixpoint_rerun_no_change rdExample reachFix (by decide)).2 1 (by decide)).1⟩

/-! ### The static current graph -/

/-- The per-graph mutable state named in the header: `class_def_idx_` and
`method_idx_`, the identity of the method the graph currently represents. -/
structure SeaGraphState where
  class_def_idx : Nat
  method_idx : Nat
  deriving DecidableEq, Repr

/-- `static SeaGraph SeaGraph::graph_` has static storage duration: one object
per process. Object identity is modelled by a storage-slot number; the single
static member occupies slot `0` for the whole process lifetime. -/
def staticGraphSlot : Nat := 0

/-- `SeaGraph::GetCurrentGraph()` hands out `&graph_` on every call: the slot
given to the `call`-th method compilation does not depend on `call`. -/
def GetCurrentGraph (call : Nat) : Nat := staticGraphSlot

/-- Modelled from the spec: the body of `SeaGraph::CompileMethod` is not in the
header; per §3 a compilation records the identity (class and method indices) of
the compiled method in the graph object it runs on, mutating it through the
pipeline. -/
def compileOnCurrent (st : SeaGraphState) (cls m : Nat) : SeaGraphState :=
  ⟨cls, m⟩

/-- C8 counterexample: formalizing "each method's analysis operates on its own
independent SeaGraph instance" as distinct compilations receiving distinct
graph slots, the claim fails at calls 0 and 1: `GetCurrentGraph` returns the
one static `graph_` slot both times. -/
theorem getCurrentGraph_not_independent :
    ¬ (∀ i j : Nat, i ≠ j → GetCurrentGraph i ≠ GetCurrentGraph j) := by
  intro h
  exact h 0 1 (by decide) rfl

/-- C8 amended: every method compilation operates on the same single static
`graph_` instance returned by `GetCurrentGraph`, and compiling a second method
with a different method index mutates the very state the first compilation
left in that shared instance. -/
theorem all_compilations_share_static_graph (i j : Nat) :
    GetCurrentGraph i = GetCurrentGraph j ∧
      ∀ (st : SeaGraphState) (c1 m1 c2 m2 : Nat), m1 ≠ m2 →
        compileOnCurrent (compileOnCurrent st c1 m1) c2 m2 ≠
          compileOnCurrent st c1 m1 := by
  refine ⟨rfl, ?_⟩
  intro st c1 m1 c2 m2 hm
  intro h
  exact hm (congrArg SeaGraphState.method_idx h).symm

theorem all_compilations_share_static_graph_witness :
    GetCurrentGraph 0 = GetCurrentGraph 1 ∧
      compileOnCurrent (compileOnCurrent ⟨0, 0⟩ 1 1) 2 2 ≠ compileOnCurrent ⟨0, 0⟩ 1 1 :=
  ⟨(all_compilations_share_static_graph 0 1).1,
    (all_compilations_share_static_graph 0 1).2 ⟨0, 0⟩ 1 1 2 2 (by decide)⟩

/-! ### Reverse postorder numbering -/

/-- A bare CFG: regions `0, …, n-1`, entry `0`, successor lists. -/
structure Cfg where
  n : Nat
  succs : Nat → List Nat

/-- `RegionNumbering::NOT_VISITED`. -/
def NOT_VISITED : Int := -1

/-- `RegionNumbering::VISITING`. -/
def VISITING : Int := -2

/-- The mutable state of the RPO computation: each region's `rpo_` field plus
the shared countdown counter `crt_rpo`. -/
structure RpoState where
  rpo : Nat → Int
  crt_rpo : Int

/-- `Reach g a b`: region `b` is reachable from `a` along CFG edges. -/
inductive Reach (g : Cfg) : Nat → Nat → Prop
  | refl (a : Nat) : Reach g a a
  | tail {a b c : Nat} : Reach g a b → c ∈ g.succs b → Reach g a c

/-- `ReachPlus g a b`: `b` is reachable from `a` along at least one edge. -/
inductive ReachPlus (g : Cfg) : Nat → Nat → Prop
  | single {a c : Nat} : c ∈ g.succs a → ReachPlus g a c
  | tail {a b c : Nat} : ReachPlus g a b → c ∈ g.succs b → ReachPlus g a c

theorem Reach.trans {g : Cfg} {a b c : Nat} (h1 : Reach g a b) (h2 : Reach g b c) :
    Reach g a c := by
  induction h2 with
  | refl => exact h1
  | tail _ hedge ih => exact Reach.tail ih hedge

theorem Reach.toPlus {g : Cfg} {a b c : Nat} (h : Reach g a b) (hedge : c ∈ g.succs b) :
    ReachPlus g a c := by
  induction h generalizing c with
  | refl => exact ReachPlus.single hedge
  | tail _ he ih => exact ReachPlus.tail (ih he) hedge

/-- Modelled from the spec: the body of `SeaGraph::ComputeRPO(Region*, int&)`
is not in the header. §4.3.2: depth-first traversal from the entry; a region
under active exploration is marked with the `VISITING` sentinel to guard
against revisiting along back edges; once all its successors are fully
explored it receives the next available postorder index from a counter that
counts down, so that reverse postorder increases along forward edges. `fuel`
only bounds the recursion depth for totality; the driver supplies enough. -/
def rpoVisit (g : Cfg) : Nat → List Nat → RpoState → RpoState
  | _, [], s => s
  | 0, _ :: _, s => s
  | fuel+1, b :: bs, s =>
    if s.rpo b = NOT_VISITED then
      let s1 : RpoState := ⟨fun x => if x = b then VISITING else s.rpo x, s.crt_rpo⟩
      let s2 := rpoVisit g fuel (g.succs b) s1
      let s3 : RpoState := ⟨fun x => if x = b then s2.crt_rpo else s2.rpo x, s2.crt_rpo - 1⟩
      rpoVisit g fuel bs s3
    else rpoVisit g fuel bs s

def sumSuccs (g : Cfg) : Nat := ∑ x ∈ Finset.range g.n, (g.succs x).length

/-- All `rpo_` fields start at `NOT_VISITED`; the counter starts at the number
of regions, so indices are assigned from `g.n` downwards. -/
def initRpoState (g : Cfg) : RpoState := ⟨fun _ => NOT_VISITED, (g.n : Int)⟩

/-- The driver: run the DFS from the entry region `0`; afterwards each region's
`GetRPO()` value is `(ComputeRPO g) region`. -/
def ComputeRPO (g : Cfg) : Nat → Int :=
  (rpoVisit g (g.n + 1 + sumSuccs g) [0] (initRpoState g)).rpo

/-- A region whose `rpo_` holds a real index (neither sentinel). -/
def Assigned (s : RpoState) (x : Nat) : Prop :=
  ¬ s.rpo x = NOT_VISITED ∧ ¬ s.rpo x = VISITING

instance (s : RpoState) (x : Nat) : Decidable (Assigned s x) := by
  unfold Assigned; infer_instance

def nvSet (g : Cfg) (s : RpoState) : Finset Nat :=
  (Finset.range g.n).filter (fun x => s.rpo x = NOT_VISITED)

def nvCount (g : Cfg) (s : RpoState) : Nat := (nvSet g s).card

def nvSuccSum (g : Cfg) (s : RpoState) : Nat := ∑ x ∈ nvSet g s, (g.succs x).length

def assignedSet (g : Cfg) (s : RpoState) : Finset Nat :=
  (Finset.range g.n).filter (fun x => Assigned s x)

/-- The state invariant of the RPO traversal: assigned indices are above the
counter; the counter equals `n` minus the number of assigned regions; regions
outside the graph are untouched; and every successor of an assigned region is
either assigned with a larger index, or still being visited (on the DFS stack,
hence with a path back to the assigned region), or lies on a cycle. -/
def RpoInv (g : Cfg) (s : RpoState) : Prop :=
  (∀ x, Assigned s x → s.crt_rpo < s.rpo x) ∧
  (s.crt_rpo = (g.n : Int) - (assignedSet g s).card) ∧
  (∀ x, ¬ x < g.n → s.rpo x = NOT_VISITED) ∧
  (∀ a, Assigned s a → ∀ c ∈ g.succs a,
    (Assigned s c ∧ s.rpo a < s.rpo c) ∨ (s.rpo c = VISITING ∧ Reach g c a) ∨
      ReachPlus g c c)

theorem rpoVisit_nil (g : Cfg) (fuel : Nat) (s : RpoState) : rpoVisit g fuel [] s = s := by
  cases fuel <;> rfl

theorem rpoVisit_cons_pos (g : Cfg) (fuel : Nat) (b : Nat) (bs : List Nat) (s : RpoState)
    (h : s.rpo b = NOT_VISITED) :
    rpoVisit g (fuel+1) (b :: bs) s =
      rpoVisit g fuel bs
        (⟨fun x => if x = b then
            (rpoVisit g fuel (g.succs b) ⟨fun x => if x = b then VISITING else s.rpo x,
              s.crt_rpo⟩).crt_rpo
          else (rpoVisit g fuel (g.succs b) ⟨fun x => if x = b then VISITING else s.rpo x,
              s.crt_rpo⟩).rpo x,
          (rpoVisit g fuel (g.succs b) ⟨fun x => if x = b then VISITING else s.rpo x,
            s.crt_rpo⟩).crt_rpo - 1⟩) := by
  simp [rpoVisit, h]

theorem rpoVisit_cons_neg (g : Cfg) (fuel : Nat) (b : Nat) (bs : List Nat) (s : RpoState)
    (h : ¬ s.rpo b = NOT_VISITED) :
    rpoVisit g (fuel+1) (b :: bs) s = rpoVisit g fuel bs s := by
  simp [rpoVisit, h]

theorem assignedSet_card_le (g : Cfg) (s : RpoState) : (assignedSet g s).card ≤ g.n := by
  calc (assignedSet g s).card ≤ (Finset.range g.n).card := Finset.card_filter_le _ _
  _ = g.n := Finset.card_range g.n

theorem crt_nonneg (g : Cfg) (s : RpoState) (hinv : RpoInv g s) : 0 ≤ s.crt_rpo := by
  have h2 := hinv.2.1
  have hle := assignedSet_card_le g s
  omega

theorem not_assigned_nv (s : RpoState) (x : Nat) (h : s.rpo x = NOT_VISITED) :
    ¬ Assigned s x := by
  intro ha; exact ha.1 h

theorem not_assigned_visiting (s : RpoState) (x : Nat) (h : s.rpo x = VISITING) :
    ¬ Assigned s x := by
  intro ha; exact ha.2 h

theorem assignedSet_mark (g : Cfg) (s : RpoState) (b : Nat) (hb : s.rpo b = NOT_VISITED) :
    assignedSet g ⟨fun x => if x = b then VISITING else s.rpo x, s.crt_rpo⟩ =
      assignedSet g s := by
  ext x
  by_cases hx : x = b
  · subst hx
    simp [assignedSet, Assigned, hb]
  · simp [assignedSet, Assigned, hx]

theorem nvSet_mark (g : Cfg) (s : RpoState) (b : Nat) :
    nvSet g ⟨fun x => if x = b then VISITING else s.rpo x, s.crt_rpo⟩ =
      (nvSet g s).erase b := by
  ext x
  by_cases hx : x = b
  · subst hx
    simp [nvSet, VISITING, NOT_VISITED]
  · simp [nvSet, hx, Finset.mem_erase]

theorem assignedSet_assign (g : Cfg) (s2 : RpoState) (b : Nat) (hbn : b < g.n)
    (hvis : s2.rpo b = VISITING) (hcrt : 0 ≤ s2.crt_rpo) :
    assignedSet g ⟨fun x => if x = b then s2.crt_rpo else s2.rpo x, s2.crt_rpo - 1⟩ =
      insert b (assignedSet g s2) := by
  ext x
  simp only [assignedSet, Finset.mem_filter, Finset.mem_range, Finset.mem_insert, Assigned]
  by_cases hx : x = b
  · subst hx
    simp only [if_pos rfl, if_true, NOT_VISITED, VISITING]
    constructor
    · intro _
      exact Or.inl trivial
    · intro _
      exact ⟨hbn, by omega, by omega⟩
  · simp only [if_neg hx]
    constructor
    · rintro ⟨h1, h2⟩
      exact Or.inr ⟨h1, h2⟩
    · rintro (h | ⟨h1, h2⟩)
      · exact absurd h hx
      · exact ⟨h1, h2⟩

theorem nvSet_assign (g : Cfg) (s2 : RpoState) (b : Nat)
    (hvis : s2.rpo b = VISITING) (hcrt : 0 ≤ s2.crt_rpo) :
    nvSet g ⟨fun x => if x = b then s2.crt_rpo else s2.rpo x, s2.crt_rpo - 1⟩ =
      nvSet g s2 := by
  ext x
  simp only [nvSet, Finset.mem_filter, Finset.mem_range]
  by_cases hx : x = b
  · subst hx
    simp only [if_pos rfl, NOT_VISITED]
    constructor
    · rintro ⟨h1, h2⟩
      omega
    · rintro ⟨h1, h2⟩
      rw [hvis] at h2
      rw [VISITING] at h2
      omega
  · simp only [if_neg hx]

theorem assigned_congr {s s' : RpoState} {x : Nat} (h : s'.rpo x = s.rpo x) :
    Assigned s' x ↔ Assigned s x := by
  unfold Assigned
  rw [h]

theorem nv_ne_visiting : ¬ NOT_VISITED = VISITING := by
  unfold NOT_VISITED VISITING
  omega

/-- The workhorse specification of the DFS: with enough fuel, under the state
invariant, a call leaves old marks alone, assigns exactly the nodes it newly
reaches, never raises the counter, leaves no worklist node unvisited, and
preserves the invariant. -/
theorem rpoVisit_spec (g : Cfg) (hsucc : ∀ a, a < g.n → ∀ c ∈ g.succs a, c < g.n) :
    ∀ (fuel : Nat) (bs : List Nat) (s : RpoState),
      (∀ b ∈ bs, b < g.n) →
      nvCount g s + bs.length + nvSuccSum g s ≤ fuel →
      RpoInv g s →
      (∀ v, s.rpo v = VISITING → ∀ b ∈ bs, Reach g v b) →
      (∀ x, ¬ s.rpo x = NOT_VISITED → (rpoVisit g fuel bs s).rpo x = s.rpo x) ∧
      (∀ x, ¬ (rpoVisit g fuel bs s).rpo x = s.rpo x →
        s.rpo x = NOT_VISITED ∧ Assigned (rpoVisit g fuel bs s) x ∧
          ∃ b ∈ bs, Reach g b x) ∧
      (rpoVisit g fuel bs s).crt_rpo ≤ s.crt_rpo ∧
      (∀ b ∈ bs, ¬ (rpoVisit g fuel bs s).rpo b = NOT_VISITED) ∧
      RpoInv g (rpoVisit g fuel bs s) := by
  intro fuel
  induction fuel with
  | zero =>
    intro bs s hbs hfuel hinv hH
    match bs with
    | [] =>
      rw [rpoVisit_nil]
      exact ⟨fun x _ => rfl, fun x hx => absurd rfl hx, le_refl _, by simp, hinv⟩
    | b :: bs =>
      simp only [List.length_cons] at hfuel
      omega
  | succ fuel ih =>
    intro bs s hbs hfuel hinv hH
    match bs with
    | [] =>
      rw [rpoVisit_nil]
      exact ⟨fun x _ => rfl, fun x hx => absurd rfl hx, le_refl _, by simp, hinv⟩
    | b :: bs =>
      by_cases hb : s.rpo b = NOT_VISITED
      · -- the head is unvisited: mark it, explore its successors, assign it
        rw [rpoVisit_cons_pos g fuel b bs s hb]
        obtain ⟨hV, hC, hM, hE⟩ := hinv
        have hbn : b < g.n := hbs b (List.mem_cons_self b bs)
        have hsbn : ∀ c ∈ g.succs b, c < g.n := hsucc b hbn
        have hbmem_nv : b ∈ nvSet g s := by
          simp [nvSet, hbn, hb]
        set s1 : RpoState := ⟨fun x => if x = b then VISITING else s.rpo x, s.crt_rpo⟩
          with hs1
        have hs1b : s1.rpo b = VISITING := by simp [hs1]
        have hs1x : ∀ x, ¬ x = b → s1.rpo x = s.rpo x := by
          intro x hx
          simp [hs1, hx]
        have hs1crt : s1.crt_rpo = s.crt_rpo := rfl
        have hinv1 : RpoInv g s1 := by
          refine ⟨?_, ?_, ?_, ?_⟩
          · intro x hx
            have hxb : ¬ x = b := by
              intro he
              subst he
              exact hx.2 hs1b
            rw [hs1crt, hs1x x hxb]
            exact hV x ((assigned_congr (hs1x x hxb)).mp hx)
          · rw [hs1crt, hs1, assignedSet_mark g s b hb]
            exact hC
          · intro x hx
            have hxb : ¬ x = b := by
              intro he
              subst he
              exact hx hbn
            rw [hs1x x hxb]
            exact hM x hx
          · intro a ha c hc
            have hab : ¬ a = b := by
              intro he
              subst he
              exact ha.2 hs1b
            have haS : Assigned s a := (assigned_congr (hs1x a hab)).mp ha
            rcases hE a haS c hc with ⟨hAc, hlt⟩ | ⟨hvis', hr⟩ | hcyc
            · have hcb : ¬ c = b := by
                intro he
                subst he
                exact hAc.1 hb
              exact Or.inl ⟨(assigned_congr (hs1x c hcb)).mpr hAc,
                by rw [hs1x a hab, hs1x c hcb]; exact hlt⟩
            · have hcb : ¬ c = b := by
                intro he
                subst he
                rw [hb] at hvis'
                exact nv_ne_visiting hvis'
              exact Or.inr (Or.inl ⟨by rw [hs1x c hcb]; exact hvis', hr⟩)
            · exact Or.inr (Or.inr hcyc)
        have hH1 : ∀ v, s1.rpo v = VISITING → ∀ c ∈ g.succs b, Reach g v c := by
          intro v hv c hc
          by_cases hvb : v = b
          · subst hvb
            exact Reach.tail (Reach.refl v) hc
          · have : s.rpo v = VISITING := by rw [← hs1x v hvb]; exact hv
            exact Reach.tail (hH v this b (List.mem_cons_self b bs)) hc
        have hnv1 : nvSet g s1 = (nvSet g s).erase b := by
          rw [hs1]
          exact nvSet_mark g s b
        have hcount1 : nvCount g s1 + 1 = nvCount g s := by
          unfold nvCount
          rw [hnv1, Finset.card_erase_of_mem hbmem_nv]
          have : 0 < (nvSet g s).card := Finset.card_pos.mpr ⟨b, hbmem_nv⟩
          omega
        have hsum1 : nvSuccSum g s1 + (g.succs b).length = nvSuccSum g s := by
          unfold nvSuccSum
          rw [hnv1]
          exact Finset.sum_erase_add (nvSet g s) _ hbmem_nv
        have hfuel1 : nvCount g s1 + (g.succs b).length + nvSuccSum g s1 ≤ fuel := by
          simp only [List.length_cons] at hfuel
          omega
        obtain ⟨P1a, P2a, P3a, P4a, hinv2⟩ := ih (g.succs b) s1 hsbn hfuel1 hinv1 hH1
        set s2 : RpoState := rpoVisit g fuel (g.succs b) s1 with hs2
        have hs2b : s2.rpo b = VISITING := by
          rw [P1a b (by rw [hs1b]; intro he; exact nv_ne_visiting he.symm)]
          exact hs1b
        have hvisback : ∀ x, s2.rpo x = VISITING → s1.rpo x = VISITING := by
          intro x hx
          by_cases hnv : s1.rpo x = NOT_VISITED
          · by_cases hch : s2.rpo x = s1.rpo x
            · rw [hch, hnv] at hx
              exact absurd hx nv_ne_visiting
            · obtain ⟨_, hAss, _⟩ := P2a x hch
              exact absurd hx hAss.2
          · rw [P1a x hnv] at hx
            exact hx
        have hcrt2 : 0 ≤ s2.crt_rpo := crt_nonneg g s2 hinv2
        have hcrt21 : s2.crt_rpo ≤ s.crt_rpo := by
          rw [← hs1crt]
          exact P3a
        set s3 : RpoState := ⟨fun x => if x = b then s2.crt_rpo else s2.rpo x,
          s2.crt_rpo - 1⟩ with hs3
        have hs3b : s3.rpo b = s2.crt_rpo := by simp [hs3]
        have hs3x : ∀ x, ¬ x = b → s3.rpo x = s2.rpo x := by
          intro x hx
          simp [hs3, hx]
        have hs3crt : s3.crt_rpo = s2.crt_rpo - 1 := rfl
        have hAss3b : Assigned s3 b := by
          constructor
          · rw [hs3b]
            unfold NOT_VISITED
            omega
          · rw [hs3b]
            unfold VISITING
            omega
        obtain ⟨hV2, hC2, hM2, hE2⟩ := hinv2
        have hinv3 : RpoInv g s3 := by
          refine ⟨?_, ?_, ?_, ?_⟩
          · intro x hx
            by_cases hxb : x = b
            · subst hxb
              rw [hs3b, hs3crt]
              omega
            · rw [hs3crt, hs3x x hxb]
              have := hV2 x ((assigned_congr (hs3x x hxb)).mp hx)
              omega
          · rw [hs3crt, hs3, assignedSet_assign g s2 b hbn hs2b hcrt2]
            rw [Finset.card_insert_of_not_mem (by
              simp only [assignedSet, Finset.mem_filter, Finset.mem_range]
              intro hmem
              exact hmem.2.2 hs2b)]
            rw [hC2]
            push_cast
            ring
          · intro x hx
            have hxb : ¬ x = b := by
              intro he
              subst he
              exact hx hbn
            rw [hs3x x hxb]
            exact hM2 x hx
          · intro a ha c hc
            by_cases hab : a = b
            · rw [hab] at ha hc ⊢
              have hcnv : ¬ s2.rpo c = NOT_VISITED := P4a c hc
              by_cases hAc : Assigned s2 c
              · have hcb : ¬ c = b := by
                  intro he
                  subst he
                  exact hAc.2 hs2b
                refine Or.inl ⟨(assigned_congr (hs3x c hcb)).mpr hAc, ?_⟩
                rw [hs3b, hs3x c hcb]
                exact hV2 c hAc
              · have hcv : s2.rpo c = VISITING := by
                  by_contra hcv'
                  exact hAc ⟨hcnv, hcv'⟩
                have hcv1 : s1.rpo c = VISITING := hvisback c hcv
                by_cases hcb : c = b
                · subst hcb
                  exact Or.inr (Or.inr (ReachPlus.single hc))
                · have hcvS : s.rpo c = VISITING := by
                    rw [← hs1x c hcb]
                    exact hcv1
                  refine Or.inr (Or.inl ⟨?_, hH c hcvS b (List.mem_cons_self b bs)⟩)
                  rw [hs3x c hcb]
                  exact hcv
            · have haS2 : Assigned s2 a := (assigned_congr (hs3x a hab)).mp ha
              rcases hE2 a haS2 c hc with ⟨hAc, hlt⟩ | ⟨hvis', hr⟩ | hcyc
              · have hcb : ¬ c = b := by
                  intro he
                  subst he
                  exact hAc.2 hs2b
                exact Or.inl ⟨(assigned_congr (hs3x c hcb)).mpr hAc,
                  by rw [hs3x a hab, hs3x c hcb]; exact hlt⟩
              · by_cases hcb : c = b
                · subst hcb
                  exact Or.inr (Or.inr (Reach.toPlus hr hc))
                · exact Or.inr (Or.inl ⟨by rw [hs3x c hcb]; exact hvis', hr⟩)
              · exact Or.inr (Or.inr hcyc)
        have hH3 : ∀ v, s3.rpo v = VISITING → ∀ c ∈ bs, Reach g v c := by
          intro v hv c hc
          have hvb : ¬ v = b := by
            intro he
            subst he
            rw [hs3b] at hv
            rw [VISITING] at hv
            omega
          have hv2 : s2.rpo v = VISITING := by
            rw [← hs3x v hvb]
            exact hv
          have hv1 : s1.rpo v = VISITING := hvisback v hv2
          have hvS : s.rpo v = VISITING := by
            rw [← hs1x v hvb]
            exact hv1
          exact hH v hvS c (List.mem_cons_of_mem b hc)
        have hnv21 : nvSet g s2 ⊆ nvSet g s1 := by
          intro x hx
          simp only [nvSet, Finset.mem_filter, Finset.mem_range] at hx ⊢
          refine ⟨hx.1, ?_⟩
          by_contra hc
          rw [P1a x hc] at hx
          exact hc hx.2
        have hnv3 : nvSet g s3 = nvSet g s2 := by
          rw [hs3]
          exact nvSet_assign g s2 b hs2b hcrt2
        have hfuel3 : nvCount g s3 + bs.length + nvSuccSum g s3 ≤ fuel := by
          have hcard : nvCount g s3 ≤ nvCount g s1 := by
            unfold nvCount
            rw [hnv3]
            exact Finset.card_le_card hnv21
          have hsum : nvSuccSum g s3 ≤ nvSuccSum g s1 := by
            unfold nvSuccSum
            rw [hnv3]
            exact Finset.sum_le_sum_of_subset hnv21
          simp only [List.length_cons] at hfuel
          omega
        have hbs' : ∀ c ∈ bs, c < g.n := fun c hc => hbs c (List.mem_cons_of_mem b hc)
        obtain ⟨P1b, P2b, P3b, P4b, hinvF⟩ := ih bs s3 hbs' hfuel3 hinv3 hH3
        have hs3bnv : ¬ s3.rpo b = NOT_VISITED := hAss3b.1
        refine ⟨?_, ?_, ?_, ?_, hinvF⟩
        · -- old non-NOT_VISITED marks survive
          intro x hx
          have hxb : ¬ x = b := by
            intro he
            subst he
            exact hx hb
          have h1 : s1.rpo x = s.rpo x := hs1x x hxb
          have h2 : s2.rpo x = s.rpo x := by
            rw [P1a x (by rw [h1]; exact hx)]
            exact h1
          have h3 : s3.rpo x = s.rpo x := by
            rw [hs3x x hxb]
            exact h2
          rw [P1b x (by rw [h3]; exact hx)]
          exact h3
        · -- every changed mark is a fresh assignment of a reachable node
          intro x hx
          by_cases hxb : x = b
          · subst hxb
            have hfb : (rpoVisit g fuel bs s3).rpo x = s3.rpo x := P1b x hs3bnv
            refine ⟨hb, ?_, x, List.mem_cons_self x bs, Reach.refl x⟩
            rw [(assigned_congr hfb : _)]
            exact hAss3b
          · by_cases hch3 : (rpoVisit g fuel bs s3).rpo x = s3.rpo x
            · have hch2 : ¬ s2.rpo x = s1.rpo x := by
                intro he
                apply hx
                rw [hch3, hs3x x hxb, he, hs1x x hxb]
              obtain ⟨hnv1x, hAss2, c, hcmem, hre⟩ := P2a x hch2
              have hnvx : s.rpo x = NOT_VISITED := by
                rw [← hs1x x hxb]
                exact hnv1x
              refine ⟨hnvx, ?_, b, List.mem_cons_self b bs,
                Reach.trans (Reach.tail (Reach.refl b) hcmem) hre⟩
              rw [(assigned_congr hch3 : _), (assigned_congr (hs3x x hxb) : _)]
              exact hAss2
            · obtain ⟨hnv3x, hAssF, c, hcmem, hre⟩ := P2b x hch3
              have hnvx : s.rpo x = NOT_VISITED := by
                have h2 : s2.rpo x = NOT_VISITED := by
                  rw [← hs3x x hxb]
                  exact hnv3x
                have h1 : s1.rpo x = NOT_VISITED := by
                  by_contra hcn
                  rw [P1a x hcn] at h2
                  exact hcn h2
                rw [← hs1x x hxb]
                exact h1
              exact ⟨hnvx, hAssF, c, List.mem_cons_of_mem b hcmem, hre⟩
        · -- the counter never increases
          calc (rpoVisit g fuel bs s3).crt_rpo ≤ s3.crt_rpo := P3b
          _ = s2.crt_rpo - 1 := hs3crt
          _ ≤ s.crt_rpo := by omega
        · -- every worklist node ends up visited
          intro c hc
          rcases List.mem_cons.mp hc with rfl | hc'
          · rw [P1b c hs3bnv]
            exact hs3bnv
          · exact P4b c hc'
      · -- the head was already visited: skip it
        rw [rpoVisit_cons_neg g fuel b bs s hb]
        have hfuel' : nvCount g s + bs.length + nvSuccSum g s ≤ fuel := by
          simp only [List.length_cons] at hfuel
          omega
        obtain ⟨P1, P2, P3, P4, hinvF⟩ := ih bs s
          (fun c hc => hbs c (List.mem_cons_of_mem b hc)) hfuel' hinv
          (fun v hv c hc => hH v hv c (List.mem_cons_of_mem b hc))
        refine ⟨P1, ?_, P3, ?_, hinvF⟩
        · intro x hx
          obtain ⟨h1, h2, c, hcmem, h3⟩ := P2 x hx
          exact ⟨h1, h2, c, List.mem_cons_of_mem b hcmem, h3⟩
        · intro c hc
          rcases List.mem_cons.mp hc with rfl | hc'
          · rw [P1 c hb]
            exact hb
          · exact P4 c hc'

theorem initRpoState_inv (g : Cfg) : RpoInv g (initRpoState g) := by
  refine ⟨?_, ?_, ?_, ?_⟩
  · intro x hx
    exact absurd rfl hx.1
  · have : assignedSet g (initRpoState g) = ∅ := by
      ext x
      simp [assignedSet, initRpoState, Assigned]
    rw [this]
    simp [initRpoState]
  · intro x _
    rfl
  · intro a ha
    exact absurd rfl ha.1

theorem nvSet_init (g : Cfg) : nvSet g (initRpoState g) = Finset.range g.n := by
  ext x
  simp [nvSet, initRpoState]

/-- The final state of `ComputeRPO`: invariants plus the run facts. -/
theorem computeRPO_final (g : Cfg) (hn : 0 < g.n)
    (hsucc : ∀ a, a < g.n → ∀ c ∈ g.succs a, c < g.n) :
    (∀ x, ¬ Reach g 0 x → ComputeRPO g x = NOT_VISITED) ∧
      (∀ x, ¬ ComputeRPO g x = VISITING) ∧
      (∀ x, Reach g 0 x → (∀ y, Reach g 0 y → ¬ ReachPlus g y y) →
        ¬ ComputeRPO g x = NOT_VISITED) ∧
      (∀ a, Assigned (rpoVisit g (g.n + 1 + sumSuccs g) [0] (initRpoState g)) a →
        ∀ c ∈ g.succs a,
          (Assigned (rpoVisit g (g.n + 1 + sumSuccs g) [0] (initRpoState g)) c ∧
            ComputeRPO g a < ComputeRPO g c) ∨
          (ComputeRPO g c = VISITING ∧ Reach g c a) ∨ ReachPlus g c c) := by
  have hbs : ∀ b ∈ [0], b < g.n := by
    intro b hb
    rcases List.mem_singleton.mp hb with rfl
    exact hn
  have hfuel : nvCount g (initRpoState g) + ([0] : List Nat).length +
      nvSuccSum g (initRpoState g) ≤ g.n + 1 + sumSuccs g := by
    unfold nvCount nvSuccSum
    rw [nvSet_init]
    simp [sumSuccs]
  have hH : ∀ v, (initRpoState g).rpo v = VISITING → ∀ b ∈ ([0] : List Nat),
      Reach g v b := by
    intro v hv
    exact absurd hv nv_ne_visiting
  obtain ⟨P1, P2, P3, P4, hinvF⟩ :=
    rpoVisit_spec g hsucc (g.n + 1 + sumSuccs g) [0] (initRpoState g) hbs hfuel
      (initRpoState_inv g) hH
  have hCR : ∀ x, ComputeRPO g x =
      (rpoVisit g (g.n + 1 + sumSuccs g) [0] (initRpoState g)).rpo x := fun x => rfl
  have hnoVis : ∀ x, ¬ ComputeRPO g x = VISITING := by
    intro x hx
    rw [hCR x] at hx
    have hch : ¬ (rpoVisit g (g.n + 1 + sumSuccs g) [0] (initRpoState g)).rpo x =
        (initRpoState g).rpo x := by
      intro he
      rw [he] at hx
      exact nv_ne_visiting hx
    obtain ⟨_, hAss, _⟩ := P2 x hch
    exact hAss.2 hx
  have hunreach : ∀ x, ¬ Reach g 0 x → ComputeRPO g x = NOT_VISITED := by
    intro x hx
    by_contra hc
    have hch : ¬ (rpoVisit g (g.n + 1 + sumSuccs g) [0] (initRpoState g)).rpo x =
        (initRpoState g).rpo x := hc
    obtain ⟨_, _, b, hbm, hr⟩ := P2 x hch
    rcases List.mem_singleton.mp hbm with rfl
    exact hx hr
  refine ⟨hunreach, hnoVis, ?_, hinvF.2.2.2⟩
  intro x hx hacyc
  induction hx with
  | refl => exact P4 0 (List.mem_singleton.mpr rfl)
  | tail hr hc ih =>
    rename_i b' c'
    have hAa : Assigned (rpoVisit g (g.n + 1 + sumSuccs g) [0] (initRpoState g)) b' :=
      ⟨ih, hnoVis b'⟩
    rcases hinvF.2.2.2 b' hAa c' hc with ⟨hAc, _⟩ | ⟨hvis', _⟩ | hcyc
    · exact hAc.1
    · exact absurd hvis' (hnoVis c')
    · exact absurd hcyc (hacyc c' (Reach.tail hr hc))

/-- C4 amended: for a CFG whose reachable part is acyclic, every edge whose
source is reachable from the entry has a strictly smaller RPO index than its
destination, and every region not reachable from the entry keeps the
`NOT_VISITED` sentinel. -/
theorem computeRPO_amended (g : Cfg) (hn : 0 < g.n)
    (hsucc : ∀ a, a < g.n → ∀ c ∈ g.succs a, c < g.n)
    (hacyc : ∀ x, Reach g 0 x → ¬ ReachPlus g x x) :
    (∀ a, Reach g 0 a → ∀ c ∈ g.succs a, ComputeRPO g a < ComputeRPO g c) ∧
      ∀ x, ¬ Reach g 0 x → ComputeRPO g x = NOT_VISITED := by
  obtain ⟨hunreach, hnoVis, hassigned, hEF⟩ := computeRPO_final g hn hsucc
  refine ⟨?_, hunreach⟩
  intro a ha c hc
  have hAa : Assigned (rpoVisit g (g.n + 1 + sumSuccs g) [0] (initRpoState g)) a :=
    ⟨hassigned a ha hacyc, hnoVis a⟩
  rcases hEF a hAa c hc with ⟨_, hlt⟩ | ⟨hvis', _⟩ | hcyc
  · exact hlt
  · exact absurd hvis' (hnoVis c)
  · exact absurd hcyc (hacyc c (Reach.tail ha hc))

/-- Entry region `0` is isolated; the edge `1 → 2` lies entirely in the
unreachable part, where both endpoints keep `rpo_ = NOT_VISITED = -1`. -/
def cexGraph : Cfg := ⟨3, fun a => if a = 1 then [2] else []⟩

theorem cexGraph_reachPlus : ∀ x y, ReachPlus cexGraph x y → x = 1 ∧ y = 2 := by
  intro x y h
  induction h with
  | single hc =>
    by_cases ha : x = 1
    · subst ha
      simp only [cexGraph, if_pos rfl] at hc
      rcases List.mem_singleton.mp hc with rfl
      exact ⟨rfl, rfl⟩
    · simp only [cexGraph, if_neg ha] at hc
      exact absurd hc (List.not_mem_nil _)
  | tail h hc ih =>
    rename_i b
    obtain ⟨rfl, rfl⟩ := ih
    simp only [cexGraph] at hc
    exact absurd hc (List.not_mem_nil _)

/-- C4 counterexample: on `cexGraph`, whose reachable part is acyclic (and
whose successor lists are in bounds), the edge `(1, 2)` violates
`GetRPO 1 < GetRPO 2`: both unreachable endpoints hold the `NOT_VISITED`
sentinel `-1`. -/
theorem computeRPO_counterexample :
    (∀ x, Reach cexGraph 0 x → ¬ ReachPlus cexGraph x x) ∧
      (∀ a, a < cexGraph.n → ∀ c ∈ cexGraph.succs a, c < cexGraph.n) ∧
      2 ∈ cexGraph.succs 1 ∧
      ¬ (ComputeRPO cexGraph 1 < ComputeRPO cexGraph 2) := by
  refine ⟨?_, by decide, by decide, by decide⟩
  intro x _ h
  obtain ⟨h1, h2⟩ := cexGraph_reachPlus x x h
  rw [h1] at h2
  exact absurd h2 (by decide)

/-- Diamond CFG: `0 → {1, 2} → 3`. -/
def diamondGraph : Cfg :=
  ⟨4, fun a => if a = 0 then [1, 2] else if a = 1 then [3] else if a = 2 then [3] else []⟩

def diamondRank (x : Nat) : Nat := if x = 0 then 0 else if x = 3 then 2 else 1

theorem diamond_edge_rank : ∀ a c, c ∈ diamondGraph.succs a →
    diamondRank a < diamondRank c := by
  intro a c hc
  by_cases h0 : a = 0
  · subst h0
    simp [diamondGraph] at hc
    rcases hc with rfl | rfl
    · decide
    · decide
  · by_cases h1 : a = 1
    · subst h1
      simp [diamondGraph] at hc
      subst hc
      decide
    · by_cases h2 : a = 2
      · subst h2
        simp [diamondGraph] at hc
        subst hc
        decide
      · simp [diamondGraph, h0, h1, h2] at hc

theorem diamond_no_cycle : ∀ x y, ReachPlus diamondGraph x y →
    diamondRank x < diamondRank y := by
  intro x y h
  induction h with
  | single hc => exact diamond_edge_rank _ _ hc
  | tail _ hc ih => exact Nat.lt_trans ih (diamond_edge_rank _ _ hc)

theorem diamond_acyclic : ∀ x, Reach diamondGraph 0 x → ¬ ReachPlus diamondGraph x x :=
  fun x _ h => absurd (diamond_no_cycle x x h) (lt_irrefl _)

theorem computeRPO_amended_witness :
    0 < diamondGraph.n ∧ 1 ∈ diamondGraph.succs 0 ∧
      ComputeRPO diamondGraph 0 < ComputeRPO diamondGraph 1 :=
  ⟨by decide, by decide,
    (computeRPO_amended diamondGraph (by decide) (by decide) diamond_acyclic).1 0
      (Reach.refl 0) 1 (by decide)⟩

/-! ### Phi insertion -/

/-- The inputs of the phi-insertion stage: the dominance frontier of every
region (the state left by `ComputeDominanceFrontier`, a `std::set` enumerated
in some order) and, per register, the regions holding a downward-exposed
definition of it. -/
structure PhiGraph where
  n : Nat
  df : Nat → List Nat
  defsites : Int → List Nat

/-- Modelled from the spec: the phi-insertion worklist loop of
`SeaGraph::ConvertToSSA` (body not in the header). §4.3.7: repeatedly pop a
region; for every region in its dominance frontier lacking a phi for the
register, insert one (`Region::InsertPhiFor`) and add that region to the
worklist. Returns the phi set and the leftover worklist (empty iff the loop
ran to completion within `fuel`). -/
def phiLoop (g : PhiGraph) : Nat → List Nat → Finset Nat → (Finset Nat × List Nat)
  | 0, w, phi => (phi, w)
  | _+1, [], phi => (phi, [])
  | fuel+1, b :: w, phi =>
      phiLoop g fuel (w ++ (g.df b).filter (fun c => decide (c ∉ phi)))
        (phi ∪ (g.df b).toFinset)

/-- Modelled from the spec: for every register with more than one definition
site, seed the worklist with the defining regions and run the loop; registers
with at most one site get no phis (semi-pruned SSA). -/
def phiInsertion (g : PhiGraph) (fuel : Nat) : Int → Finset Nat := fun r =>
  if 1 < (g.defsites r).toFinset.card then (phiLoop g fuel (g.defsites r) ∅).1
  else ∅

/-- `Region::ContainsPhiFor(reg_no)`: `phi_set_.find(reg_no) != end()`,
with the per-region phi sets sliced per register. -/
def ContainsPhiFor (phis : Int → Finset Nat) (b : Nat) (reg : Int) : Bool :=
  decide (b ∈ phis reg)

/-- The iterated dominance frontier of a seed set. -/
inductive InIDF (g : PhiGraph) (seeds : List Nat) : Nat → Prop
  | base {b c : Nat} : b ∈ seeds → c ∈ g.df b → InIDF g seeds c
  | step {b c : Nat} : InIDF g seeds b → c ∈ g.df b → InIDF g seeds c

theorem phiLoop_sound (g : PhiGraph) (seeds : List Nat) :
    ∀ (fuel : Nat) (w : List Nat) (phi : Finset Nat),
      (∀ c ∈ phi, InIDF g seeds c) →
      (∀ b ∈ w, b ∈ seeds ∨ InIDF g seeds b) →
      ∀ c ∈ (phiLoop g fuel w phi).1, InIDF g seeds c := by
  intro fuel
  induction fuel with
  | zero => intro w phi hphi _ c hc; exact hphi c hc
  | succ fuel ih =>
    intro w phi hphi hw c hc
    match w with
    | [] => exact hphi c hc
    | b :: w =>
      refine ih _ _ ?_ ?_ c hc
      · intro c' hc'
        rcases Finset.mem_union.mp hc' with h | h
        · exact hphi c' h
        · have hdf : c' ∈ g.df b := List.mem_toFinset.mp h
          rcases hw b (List.mem_cons_self b w) with hs | hi
          · exact InIDF.base hs hdf
          · exact InIDF.step hi hdf
      · intro b' hb'
        rcases List.mem_append.mp hb' with h | h
        · exact hw b' (List.mem_cons_of_mem b h)
        · have hdf : b' ∈ g.df b := (List.mem_filter.mp h).1
          rcases hw b (List.mem_cons_self b w) with hs | hi
          · exact Or.inr (InIDF.base hs hdf)
          · exact Or.inr (InIDF.step hi hdf)

theorem phiLoop_closed (g : PhiGraph) (seeds : List Nat) :
    ∀ (fuel : Nat) (w : List Nat) (phi : Finset Nat),
      (∀ b, b ∈ seeds ∨ b ∈ phi → (∀ c ∈ g.df b, c ∈ phi) ∨ b ∈ w) →
      (phiLoop g fuel w phi).2 = [] →
      ∀ b, b ∈ seeds ∨ b ∈ (phiLoop g fuel w phi).1 →
        ∀ c ∈ g.df b, c ∈ (phiLoop g fuel w phi).1 := by
  intro fuel
  induction fuel with
  | zero =>
    intro w phi hclosed hterm b hb c hc
    simp only [phiLoop] at hterm hb ⊢
    rcases hclosed b hb with h | h
    · exact h c hc
    · rw [hterm] at h
      exact absurd h (List.not_mem_nil b)
  | succ fuel ih =>
    intro w phi hclosed hterm b hb c hc
    match w with
    | [] =>
      simp only [phiLoop] at hterm hb ⊢
      rcases hclosed b hb with h | h
      · exact h c hc
      · exact absurd h (List.not_mem_nil b)
    | bh :: w =>
      refine ih _ _ ?_ hterm b hb c hc
      intro b' hb'
      by_cases hmem : b' ∈ (g.df bh).toFinset
      · by_cases hphi : b' ∈ phi
        · rcases hclosed b' (by
            rcases hb' with h | h
            · exact Or.inl h
            · exact Or.inr hphi) with h | h
          · exact Or.inl (fun c' hc' => Finset.mem_union_left _ (h c' hc'))
          · rcases List.mem_cons.mp h with rfl | h'
            · exact Or.inl (fun c' hc' =>
                Finset.mem_union_right _ (List.mem_toFinset.mpr hc'))
            · exact Or.inr (List.mem_append_left _ h')
        · refine Or.inr (List.mem_append_right _ ?_)
          rw [List.mem_filter]
          exact ⟨List.mem_toFinset.mp hmem, by simpa using hphi⟩
      · have hb'' : b' ∈ seeds ∨ b' ∈ phi := by
          rcases hb' with h | h
          · exact Or.inl h
          · rcases Finset.mem_union.mp h with h' | h'
            · exact Or.inr h'
            · exact absurd h' hmem
        rcases hclosed b' hb'' with h | h
        · exact Or.inl (fun c' hc' => Finset.mem_union_left _ (h c' hc'))
        · rcases List.mem_cons.mp h with rfl | h'
          · exact Or.inl (fun c' hc' =>
              Finset.mem_union_right _ (List.mem_toFinset.mpr hc'))
          · exact Or.inr (List.mem_append_left _ h')

/-- C2: after the phi-insertion stage, for a register with more than one
definition site, a region contains a phi for it (`ContainsPhiFor` true)
exactly when the region lies in the iterated dominance frontier of the
register's definition sites — so every IDF region has a phi and no region
outside the relevant (iterated) dominance frontiers has one. -/
theorem phi_insertion_iff_idf (g : PhiGraph) (fuel : Nat) (r : Int)
    (hmulti : 1 < (g.defsites r).toFinset.card)
    (hterm : (phiLoop g fuel (g.defsites r) ∅).2 = []) :
    ∀ b, ContainsPhiFor (phiInsertion g fuel) b r = true ↔
      InIDF g (g.defsites r) b := by
  intro b
  unfold ContainsPhiFor phiInsertion
  rw [if_pos hmulti]
  rw [decide_eq_true_iff]
  constructor
  · intro hb
    exact phiLoop_sound g (g.defsites r) fuel _ ∅ (by simp)
      (fun b' hb' => Or.inl hb') b hb
  · intro hidf
    have hclosed := phiLoop_closed g (g.defsites r) fuel _ ∅
      (fun b' hb' => by
        rcases hb' with h | h
        · exact Or.inr h
        · exact absurd h (Finset.not_mem_empty b'))
      hterm
    induction hidf with
    | base hs hd => exact hclosed _ (Or.inl hs) _ hd
    | step _ hd ih => exact hclosed _ (Or.inr ih) _ hd

/-- Diamond-shaped frontier data: regions 1 and 2 both have region 3 in their
dominance frontier; register 9 is defined in regions 1 and 2. -/
def phiExample : PhiGraph :=
  ⟨4, fun b => if b = 1 then [3] else if b = 2 then [3] else [],
    fun r => if r = 9 then [1, 2] else []⟩

theorem phi_insertion_iff_idf_witness :
    1 < (phiExample.defsites 9).toFinset.card ∧
      (phiLoop phiExample 8 (phiExample.defsites 9) ∅).2 = [] ∧
      (ContainsPhiFor (phiInsertion phiExample 8) 3 9 = true ↔
        InIDF phiExample (phiExample.defsites 9) 3) :=
  ⟨by decide, by decide, phi_insertion_iff_idf phiExample 8 9 (by decide) (by decide) 3⟩

/-! ### SSA renaming -/

/-- An ordinary instruction as the renaming pass sees it: its identity, the
registers it uses (`GetUses`) and the registers it defines (`GetDefinitions`). -/
structure Inst where
  id : Nat
  uses : List Int
  defs : List Int
  deriving Repr, DecidableEq

/-- A region as the renaming pass sees it: instructions in program order, the
phi bookkeeping left by phi insertion (per phi: its node id and its register,
in `phi_instructions_` order), and the CFG successor and predecessor lists. -/
structure RenRegion where
  instructions : List Inst
  phiRegs : List (Nat × Int)
  succs : List Nat
  preds : List Nat

/-- The dominator tree (`idominated_set_` links), as the structure the
recursive renaming walks. -/
inductive DomTree where
  | node : Nat → List DomTree → DomTree

/-- The method graph at renaming time: regions `0, …, n-1`, the dominator tree
rooted at the entry, and the signature placeholder nodes (per parameter: node
id and parameter register). -/
structure RenGraph where
  n : Nat
  regions : Nat → RenRegion
  domTree : DomTree
  params : List (Nat × Int)

/-- The scoped symbol table: a stack of scopes, innermost first, each scope a
list of (register, defining instruction id) bindings, newest first. -/
abbrev SymTable := List (List (Int × Nat))

/-- Modelled from the spec (`utils/scoped_hashtable.h` is not under src/):
`Lookup` finds the innermost, newest binding of a register. -/
def scopedLookup : SymTable → Int → Option Nat
  | [], _ => none
  | scope :: rest, r =>
    match scope.lookup r with
    | some d => some d
    | none => scopedLookup rest r

/-- Modelled from the spec: `Add` binds a register in the innermost scope,
shadowing any outer binding. -/
def scopedAdd : SymTable → Int → Nat → SymTable
  | [], r, d => [[(r, d)]]
  | scope :: rest, r, d => ((r, d) :: scope) :: rest

/-- The mutable state of the renaming pass: the scoped table, the per
instruction resolved definitions of its uses (`none` = not renamed yet), and
each region's phi instructions. -/
structure RenState where
  table : SymTable
  ssaUses : Nat → Option (List Nat)
  phis : Nat → List PhiInstructionNode

/-- Look up every use register; fatal (`none`) as soon as one is unbound. -/
def lookupAll (table : SymTable) : List Int → Option (List Nat)
  | [] => some []
  | r :: rs => do
      let d ← scopedLookup table r
      let ds ← lookupAll table rs
      pure (d :: ds)

/-- Modelled from the spec: renaming one ordinary instruction (§4.3.8): each
use is resolved to the innermost current definition of its register, and each
register the instruction defines is rebound to the instruction in the current
scope. -/
def renameInst (st : RenState) (inst : Inst) : Option RenState := do
  let resolved ← lookupAll st.table inst.uses
  pure { st with
    ssaUses := fun i => if i = inst.id then some resolved else st.ssaUses i,
    table := inst.defs.foldl (fun t r => scopedAdd t r inst.id) st.table }

def renameInstList : List Inst → RenState → Option RenState
  | [], st => some st
  | i :: rest, st => do
      let st' ← renameInst st i
      renameInstList rest st'

/-- Feed one definition to every phi of a region at edge `pid`; fatal when the
looked-up definition is absent (the `DCHECK` inside `RenameToSSA`). -/
def setPhiList (table : SymTable) (pid : Nat) : List PhiInstructionNode →
    Option (List PhiInstructionNode)
  | [] => some []
  | φ :: φs => do
      let φ' ← φ.RenameToSSA φ.register_no (scopedLookup table φ.register_no) pid
      let φs' ← setPhiList table pid φs
      pure (φ' :: φs')

/-- The scan for the index of predecessor `p` in a predecessor list. -/
def predIndex (preds : List Nat) (p : Nat) : Option Nat :=
  match preds with
  | [] => none
  | q :: rest => if q = p then some 0 else (predIndex rest p).map (· + 1)

/-- Modelled from the spec: `Region::SetPhiDefinitionsForUses` (§4.1, body not
in the header): find the calling predecessor's index in this region's
predecessor list (fatal if absent, the `DCHECK_NE(-1, predecessor_id)`), then
record the current definition of each phi's register at that edge. -/
def setPhiDefs (g : RenGraph) (s : Nat) (table : SymTable) (p : Nat)
    (phis : List PhiInstructionNode) : Option (List PhiInstructionNode) := do
  let pid ← predIndex (g.regions s).preds p
  setPhiList table pid phis

def fillSuccs (g : RenGraph) (b : Nat) : List Nat → RenState → Option RenState
  | [], st => some st
  | s :: ss, st => do
      let newPhis ← setPhiDefs g s st.table b (st.phis s)
      fillSuccs g b ss { st with phis := fun x => if x = s then newPhis else st.phis x }

/-- Modelled from the spec: the recursive renaming pass
`SeaGraph::RenameAsSSA(Region*, scoped_table)` over the dominator tree
(§4.3.8): push a scope, bind each phi's register to the phi node, rename the
instructions in program order, feed the phi instructions of the CFG successors
their defining edge for this region, recurse into the dominator-tree children,
pop the scope. -/
def renameForest (g : RenGraph) : List DomTree → RenState → Option RenState
  | [], st => some st
  | DomTree.node b children :: rest, st => do
      let st1 : RenState := { st with table := [] :: st.table }
      let st2 : RenState := { st1 with
        table := (g.regions b).phiRegs.foldl (fun t pr => scopedAdd t pr.2 pr.1) st1.table }
      let st3 ← renameInstList (g.regions b).instructions st2
      let st4 ← fillSuccs g b (g.regions b).succs st3
      let st5 ← renameForest g children st4
      renameForest g rest { st5 with table := st5.table.tail }

/-- Modelled from the spec: the driver `SeaGraph::RenameAsSSA()`: open the
outermost scope, seed it with one definition per parameter register from the
signature placeholder nodes, and rename from the entry region down the
dominator tree; the phi instructions start as freshly constructed
`PhiInstructionNode`s from phi insertion. -/
def RenameAsSSA (g : RenGraph) : Option RenState :=
  renameForest g [g.domTree]
    ⟨[g.params.foldl (fun sc pr => (pr.2, pr.1) :: sc) []],
      fun _ => none,
      fun s => (g.regions s).phiRegs.map (fun pr => PhiInstructionNode.mkPhi pr.2)⟩

/-- The regions of a forest, in visit order. -/
def treeIds : List DomTree → List Nat
  | [] => []
  | DomTree.node b children :: rest => b :: (treeIds children ++ treeIds rest)

theorem lookupAll_length (table : SymTable) :
    ∀ (rs : List Int) (ds : List Nat), lookupAll table rs = some ds →
      ds.length = rs.length := by
  intro rs
  induction rs with
  | nil =>
    intro ds h
    simp only [lookupAll] at h
    cases h
    rfl
  | cons r rs ih =>
    intro ds h
    simp only [lookupAll, Option.bind_eq_bind, Option.bind_eq_some] at h
    obtain ⟨d, _, ds', hds', hcons⟩ := h
    cases hcons
    simp [ih ds' hds']

theorem renameToSSA_slots (φ φ' : PhiInstructionNode) (r : Int) (dOpt : Option Nat)
    (p : Nat) (h : φ.RenameToSSA r dOpt p = some φ') :
    ∃ d, dOpt = some d ∧ slotAt φ' p = slotAt φ p ++ [d] ∧
      ∀ q, ¬ q = p → slotAt φ' q = slotAt φ q := by
  match dOpt with
  | none => exact absurd h (by simp [PhiInstructionNode.RenameToSSA])
  | some d =>
    refine ⟨d, rfl, ?_, ?_⟩
    · simp only [PhiInstructionNode.RenameToSSA, Option.some_inj] at h
      subst h
      unfold slotAt
      have hplen : p < (padTo φ.definition_edges p).length := by
        rw [padTo_length]
        omega
      rw [List.getD_eq_getElem?_getD, List.getElem?_set_eq_of_lt _ hplen]
      have hsame : (padTo φ.definition_edges p).getD p none =
          φ.definition_edges.getD p none := by
        rw [List.getD_eq_getElem?_getD, List.getD_eq_getElem?_getD]
        rcases Nat.lt_or_ge p φ.definition_edges.length with hlt | hge
        · rw [padTo_getElem_lt _ _ _ hlt]
        · rw [padTo_getElem_pad _ _ _ hge (le_refl p), List.getElem?_eq_none hge]
          rfl
      rw [hsame]
      rfl
    · intro q hq
      simp only [PhiInstructionNode.RenameToSSA, Option.some_inj] at h
      subst h
      unfold slotAt
      rw [List.getD_eq_getElem?_getD]
      rw [List.getElem?_set_ne (fun he => hq he.symm)]
      rcases Nat.lt_or_ge q φ.definition_edges.length with hlt | hge
      · rw [padTo_getElem_lt _ _ _ hlt, ← List.getD_eq_getElem?_getD]
      · rcases Nat.lt_or_ge q (p + 1) with hqp | hqp
        · rw [padTo_getElem_pad _ _ _ hge (by omega)]
          rw [List.getD_eq_getElem?_getD, List.getElem?_eq_none hge]
          rfl
        · rw [List.getElem?_eq_none (by rw [padTo_length]; omega)]
          rw [List.getD_eq_getElem?_getD, List.getElem?_eq_none hge]

theorem setPhiList_spec (table : SymTable) (pid : Nat) :
    ∀ (φs φs' : List PhiInstructionNode), setPhiList table pid φs = some φs' →
      φs'.length = φs.length ∧
      ∀ k, k < φs.length →
        (∃ d, slotAt (φs'.getD k (PhiInstructionNode.mkPhi 0)) pid =
          slotAt (φs.getD k (PhiInstructionNode.mkPhi 0)) pid ++ [d]) ∧
        ∀ q, ¬ q = pid → slotAt (φs'.getD k (PhiInstructionNode.mkPhi 0)) q =
          slotAt (φs.getD k (PhiInstructionNode.mkPhi 0)) q := by
  intro φs
  induction φs with
  | nil =>
    intro φs' h
    simp only [setPhiList] at h
    cases h
    exact ⟨rfl, fun k hk => absurd hk (by simp)⟩
  | cons φ φs ih =>
    intro φs' h
    simp only [setPhiList, Option.bind_eq_bind, Option.bind_eq_some] at h
    obtain ⟨φ1, hφ1, φs1, hφs1, hcons⟩ := h
    cases hcons
    obtain ⟨hlen, hk⟩ := ih φs1 hφs1
    obtain ⟨d, _, hslot, hother⟩ := renameToSSA_slots φ φ1 _ _ pid hφ1
    refine ⟨by simp [hlen], ?_⟩
    intro k hklt
    match k with
    | 0 => exact ⟨⟨d, hslot⟩, hother⟩
    | k+1 =>
      simp only [List.getD_cons_succ]
      exact hk k (by simpa using hklt)

theorem renameInst_phis (st st' : RenState) (i : Inst) (h : renameInst st i = some st') :
    st'.phis = st.phis := by
  simp only [renameInst, Option.bind_eq_bind, Option.bind_eq_some] at h
  obtain ⟨ds, _, hpure⟩ := h
  cases hpure
  rfl

theorem renameInstList_phis :
    ∀ (l : List Inst) (st st' : RenState), renameInstList l st = some st' →
      st'.phis = st.phis := by
  intro l
  induction l with
  | nil =>
    intro st st' h
    simp only [renameInstList] at h
    cases h
    rfl
  | cons i rest ih =>
    intro st st' h
    simp only [renameInstList, Option.bind_eq_bind, Option.bind_eq_some] at h
    obtain ⟨st1, hst1, hrest⟩ := h
    rw [ih st1 st' hrest, renameInst_phis st st1 i hst1]

theorem fillSuccs_ssaUses (g : RenGraph) (b : Nat) :
    ∀ (ss : List Nat) (st st' : RenState), fillSuccs g b ss st = some st' →
      st'.ssaUses = st.ssaUses ∧ st'.table = st.table := by
  intro ss
  induction ss with
  | nil =>
    intro st st' h
    simp only [fillSuccs] at h
    cases h
    exact ⟨rfl, rfl⟩
  | cons s ss ih =>
    intro st st' h
    simp only [fillSuccs, Option.bind_eq_bind, Option.bind_eq_some] at h
    obtain ⟨phis1, _, hrest⟩ := h
    have hres := ih { st with phis := fun x => if x = s then phis1 else st.phis x } st' hrest
    exact hres

theorem getD_eq_getElem_of_lt {l : List Nat} {k : Nat} (h : k < l.length) :
    l.getD k 0 = l[k] := by
  rw [List.getD_eq_getElem?_getD, List.getElem?_eq_getElem h]
  rfl

theorem predIndex_some (p : Nat) :
    ∀ (l : List Nat) (i : Nat), predIndex l p = some i →
      i < l.length ∧ l.getD i 0 = p ∧ ∀ j, j < i → ¬ l.getD j 0 = p := by
  intro l
  induction l with
  | nil => intro i h; exact absurd h (by simp [predIndex])
  | cons q rest ih =>
    intro i h
    simp only [predIndex] at h
    by_cases hq : q = p
    · rw [if_pos hq] at h
      cases h
      exact ⟨by simp, hq, fun j hj => absurd hj (by omega)⟩
    · rw [if_neg hq] at h
      match i with
      | 0 =>
        exfalso
        cases hpi : predIndex rest p with
        | none => rw [hpi] at h; exact Option.noConfusion h
        | some i' =>
          rw [hpi] at h
          have hj := Option.some_inj.mp (show some (i' + 1) = some 0 from h)
          omega
      | i'+1 =>
        have hrest : predIndex rest p = some i' := by
          cases hpi : predIndex rest p with
          | none => rw [hpi] at h; exact Option.noConfusion h
          | some j =>
            rw [hpi] at h
            have hj := Option.some_inj.mp (show some (j + 1) = some (i' + 1) from h)
            exact congrArg some (by omega)
        obtain ⟨h1, h2, h3⟩ := ih i' hrest
        refine ⟨by simp; omega, h2, ?_⟩
        intro j hj
        match j with
        | 0 => simpa using hq
        | j+1 =>
          simp only [List.getD_cons_succ]
          exact h3 j (by omega)

theorem predIndex_of_getD (p : Nat) :
    ∀ (l : List Nat) (i : Nat), i < l.length → l.getD i 0 = p → l.Nodup →
      predIndex l p = some i := by
  intro l
  induction l with
  | nil => intro i h; simp at h
  | cons q rest ih =>
    intro i hi hget hnd
    match i with
    | 0 =>
      simp only [List.getD_cons_zero] at hget
      simp [predIndex, hget]
    | i'+1 =>
      simp only [List.getD_cons_succ] at hget
      have hi' : i' < rest.length := by simp at hi; omega
      have hq : ¬ q = p := by
        intro he
        subst he
        have hmem : q ∈ rest := by
          rw [← hget, getD_eq_getElem_of_lt hi']
          exact List.getElem_mem _
        exact (List.nodup_cons.mp hnd).1 hmem
      simp only [predIndex, if_neg hq]
      rw [ih i' hi' hget (List.nodup_cons.mp hnd).2]
      rfl

/-- How many already-visited regions feed edge `e` of the phis of region `s`:
those visited regions that have `s` as a CFG successor and sit at position `e`
of `s`'s predecessor list. -/
def edgeCount (g : RenGraph) (s e : Nat) (V : List Nat) : Nat :=
  V.countP (fun p => decide (s ∈ (g.regions p).succs ∧
    predIndex (g.regions s).preds p = some e))

/-- The phi-edge invariant of the renaming traversal: each phi's collection at
edge `e` holds exactly one definition per visited region feeding that edge. -/
def PhiCount (g : RenGraph) (st : RenState) (V : List Nat) : Prop :=
  ∀ s e k, k < (st.phis s).length →
    (slotAt ((st.phis s).getD k (PhiInstructionNode.mkPhi 0)) e).length =
      edgeCount g s e V

theorem PhiCount_congr (g : RenGraph) (st st' : RenState) (V : List Nat)
    (h : st'.phis = st.phis) (hp : PhiCount g st V) : PhiCount g st' V := by
  intro s e k hk
  rw [h] at hk ⊢
  exact hp s e k hk

theorem fillSuccs_phis (g : RenGraph) (b : Nat) :
    ∀ (ss : List Nat) (st st' : RenState), fillSuccs g b ss st = some st' →
      ss.Nodup →
      (∀ s, ¬ s ∈ ss → st'.phis s = st.phis s) ∧
      (∀ s, s ∈ ss →
        ∃ pid, predIndex (g.regions s).preds b = some pid ∧
          (st'.phis s).length = (st.phis s).length ∧
          ∀ k, k < (st.phis s).length →
            (∃ d, slotAt ((st'.phis s).getD k (PhiInstructionNode.mkPhi 0)) pid =
              slotAt ((st.phis s).getD k (PhiInstructionNode.mkPhi 0)) pid ++ [d]) ∧
            ∀ q, ¬ q = pid →
              slotAt ((st'.phis s).getD k (PhiInstructionNode.mkPhi 0)) q =
                slotAt ((st.phis s).getD k (PhiInstructionNode.mkPhi 0)) q) := by
  intro ss
  induction ss with
  | nil =>
    intro st st' h _
    simp only [fillSuccs] at h
    cases h
    exact ⟨fun s _ => rfl, fun s hs => absurd hs (List.not_mem_nil s)⟩
  | cons s0 ss ih =>
    intro st st' h hnd
    simp only [fillSuccs, Option.bind_eq_bind, Option.bind_eq_some] at h
    obtain ⟨phis1, hphis1, hrest⟩ := h
    simp only [setPhiDefs, Option.bind_eq_bind, Option.bind_eq_some] at hphis1
    obtain ⟨pid, hpid, hlist⟩ := hphis1
    obtain ⟨hlen1, hrel1⟩ := setPhiList_spec st.table pid (st.phis s0) phis1 hlist
    have hs0notin : ¬ s0 ∈ ss := (List.nodup_cons.mp hnd).1
    obtain ⟨hnot, hyes⟩ := ih _ st' hrest (List.nodup_cons.mp hnd).2
    constructor
    · intro s hs
      have hss : ¬ s ∈ ss := fun h' => hs (List.mem_cons_of_mem s0 h')
      have hsne : ¬ s = s0 := fun h' => hs (h' ▸ List.mem_cons_self s0 ss)
      rw [hnot s hss]
      simp [hsne]
    · intro s hs
      rcases List.mem_cons.mp hs with rfl | hsin
      · refine ⟨pid, hpid, ?_, ?_⟩
        · rw [hnot s hs0notin]
          simp only [if_pos rfl]
          exact hlen1
        · intro k hk
          rw [hnot s hs0notin]
          simp only [if_pos rfl]
          exact hrel1 k hk
      · have hsne : ¬ s = s0 := by
          intro he
          subst he
          exact hs0notin hsin
        obtain ⟨pid', hpid', hlen', hrel'⟩ := hyes s hsin
        refine ⟨pid', hpid', ?_, ?_⟩
        · rw [hlen']
          simp [hsne]
        · intro k hk
          have hk1 : k < ((fun x => if x = s0 then phis1 else st.phis x) s).length := by
            simp [hsne]
            exact hk
          have := hrel' k (by simpa [hsne] using hk)
          simpa [hsne] using this

theorem PhiCount_fill (g : RenGraph) (b : Nat) (st st' : RenState) (V : List Nat)
    (hfill : fillSuccs g b (g.regions b).succs st = some st')
    (hnd : (g.regions b).succs.Nodup)
    (hPC : PhiCount g st V) : PhiCount g st' (V ++ [b]) := by
  obtain ⟨hnot, hyes⟩ := fillSuccs_phis g b _ st st' hfill hnd
  intro s e k hk
  have hcnt : edgeCount g s e (V ++ [b]) = edgeCount g s e V +
      (if s ∈ (g.regions b).succs ∧ predIndex (g.regions s).preds b = some e
        then 1 else 0) := by
    unfold edgeCount
    rw [List.countP_append]
    congr 1
    simp only [List.countP_cons, List.countP_nil]
    split
    · rename_i hcond
      rw [if_pos (of_decide_eq_true hcond)]
    · rename_i hcond
      rw [if_neg (fun hc => hcond (decide_eq_true hc))]
  rw [hcnt]
  by_cases hmem : s ∈ (g.regions b).succs
  · obtain ⟨pid, hpid, hlen, hrel⟩ := hyes s hmem
    have hk' : k < (st.phis s).length := by rw [← hlen]; exact hk
    obtain ⟨⟨d, hslot⟩, hother⟩ := hrel k hk'
    by_cases he : e = pid
    · subst he
      rw [hslot, if_pos ⟨hmem, hpid⟩, List.length_append, hPC s e k hk']
      simp
    · rw [hother e he]
      rw [if_neg (by
        rintro ⟨-, hpe⟩
        rw [hpid] at hpe
        exact he (Option.some_inj.mp hpe).symm)]
      rw [Nat.add_zero, hPC s e k hk']
  · rw [hnot s hmem]
    rw [if_neg (fun hcond => hmem hcond.1), Nat.add_zero]
    rw [hnot s hmem] at hk
    exact hPC s e k hk

theorem renameForest_phi_count (g : RenGraph)
    (hsuccnd : ∀ p, (g.regions p).succs.Nodup) :
    ∀ (l : List DomTree) (st st' : RenState) (V : List Nat),
      renameForest g l st = some st' → PhiCount g st V →
      PhiCount g st' (V ++ treeIds l) := by
  intro l
  induction l using treeIds.induct with
  | case1 =>
    intro st st' V hrun hPC
    simp only [renameForest] at hrun
    cases hrun
    simpa [treeIds] using hPC
  | case2 b children rest ihc ihr =>
    intro st st' V hrun hPC
    simp only [renameForest, Option.bind_eq_bind, Option.bind_eq_some] at hrun
    obtain ⟨st3, hst3, st4, hst4, st5, hst5, hst'⟩ := hrun
    have hPC2 : PhiCount g st3 V := by
      refine PhiCount_congr g st st3 V ?_ hPC
      have hphiseq := renameInstList_phis (g.regions b).instructions _ st3 hst3
      exact hphiseq
    have hPC4 : PhiCount g st4 (V ++ [b]) := PhiCount_fill g b st3 st4 V hst4
      (hsuccnd b) hPC2
    have hPC5 : PhiCount g st5 ((V ++ [b]) ++ treeIds children) := ihc st4 st5 _ hst5 hPC4
    have hPC6 : PhiCount g { st5 with table := st5.table.tail }
        ((V ++ [b]) ++ treeIds children) := PhiCount_congr g st5 _ _ rfl hPC5
    have hPCF : PhiCount g st' (((V ++ [b]) ++ treeIds children) ++ treeIds rest) :=
      ihr _ st' _ hst' hPC6
    have heq : ((V ++ [b]) ++ treeIds children) ++ treeIds rest =
        V ++ treeIds (DomTree.node b children :: rest) := by
      simp [treeIds, List.append_assoc]
    rw [heq] at hPCF
    exact hPCF

/-- Instruction `i`'s uses have been resolved, one definition per use. -/
def GoodAt (st : RenState) (i len : Nat) : Prop :=
  ∃ ln, st.ssaUses i = some ln ∧ ln.length = len

theorem renameInstList_uses :
    ∀ (l : List Inst) (st st' : RenState), renameInstList l st = some st' →
      ∀ i len,
        (GoodAt st i len ∨ ∃ inst ∈ l, inst.id = i ∧ inst.uses.length = len) →
        (∀ inst ∈ l, inst.id = i → inst.uses.length = len) →
        GoodAt st' i len := by
  intro l
  induction l with
  | nil =>
    intro st st' h i len hsrc _
    simp only [renameInstList] at h
    cases h
    rcases hsrc with hg | ⟨inst, hmem, _⟩
    · exact hg
    · exact absurd hmem (List.not_mem_nil inst)
  | cons inst0 rest ih =>
    intro st st' h i len hsrc hcompat
    simp only [renameInstList, Option.bind_eq_bind, Option.bind_eq_some] at h
    obtain ⟨st1, hst1, hrest⟩ := h
    simp only [renameInst, Option.bind_eq_bind, Option.bind_eq_some] at hst1
    obtain ⟨resolved, hres, hpure⟩ := hst1
    cases hpure
    have hreslen : resolved.length = inst0.uses.length :=
      lookupAll_length st.table inst0.uses resolved hres
    refine ih _ st' hrest i len ?_ ?_
    · by_cases hid : inst0.id = i
      · refine Or.inl ⟨resolved, ?_, ?_⟩
        · show (if i = inst0.id then some resolved else st.ssaUses i) = some resolved
          rw [if_pos (Eq.symm hid)]
        · rw [hreslen]
          exact hcompat inst0 (List.mem_cons_self inst0 rest) hid
      · rcases hsrc with hg | ⟨inst, hmem, hiid, hilen⟩
        · obtain ⟨ln, hln, hlen⟩ := hg
          refine Or.inl ⟨ln, ?_, hlen⟩
          show (if i = inst0.id then some resolved else st.ssaUses i) = some ln
          rw [if_neg (show ¬ i = inst0.id from fun he => hid (Eq.symm he))]
          exact hln
        · rcases List.mem_cons.mp hmem with rfl | hmem'
          · exact absurd hiid hid
          · exact Or.inr ⟨inst, hmem', hiid, hilen⟩
    · intro inst hmem hiid
      exact hcompat inst (List.mem_cons_of_mem inst0 hmem) hiid

theorem renameForest_uses (g : RenGraph) :
    ∀ (l : List DomTree) (st st' : RenState), renameForest g l st = some st' →
      ∀ i len,
        (GoodAt st i len ∨ ∃ b ∈ treeIds l, ∃ inst ∈ (g.regions b).instructions,
          inst.id = i ∧ inst.uses.length = len) →
        (∀ b ∈ treeIds l, ∀ inst ∈ (g.regions b).instructions, inst.id = i →
          inst.uses.length = len) →
        GoodAt st' i len := by
  intro l
  induction l using treeIds.induct with
  | case1 =>
    intro st st' h i len hsrc _
    simp only [renameForest] at h
    cases h
    rcases hsrc with hg | ⟨b, hmem, _⟩
    · exact hg
    · simp [treeIds] at hmem
  | case2 b children rest ihc ihr =>
    intro st st' h i len hsrc hcompat
    simp only [renameForest, Option.bind_eq_bind, Option.bind_eq_some] at h
    obtain ⟨st3, hst3, st4, hst4, st5, hst5, hst'⟩ := h
    have hbmem : b ∈ treeIds (DomTree.node b children :: rest) := by
      simp [treeIds]
    have hcompat_b : ∀ inst ∈ (g.regions b).instructions, inst.id = i →
        inst.uses.length = len := fun inst hm hid => hcompat b hbmem inst hm hid
    have hcompat_c : ∀ b' ∈ treeIds children, ∀ inst ∈ (g.regions b').instructions,
        inst.id = i → inst.uses.length = len := by
      intro b' hb' inst hm hid
      exact hcompat b' (by simp [treeIds, hb']) inst hm hid
    have hcompat_r : ∀ b' ∈ treeIds rest, ∀ inst ∈ (g.regions b').instructions,
        inst.id = i → inst.uses.length = len := by
      intro b' hb' inst hm hid
      exact hcompat b' (by simp [treeIds, hb']) inst hm hid
    have h43 : st4.ssaUses = st3.ssaUses :=
      (fillSuccs_ssaUses g b (g.regions b).succs st3 st4 hst4).1
    rcases hsrc with hg | ⟨b', hb', inst, hminst, hiid, hilen⟩
    · -- already good before this subtree
      have hg3 : GoodAt st3 i len := by
        refine renameInstList_uses _ _ st3 hst3 i len (Or.inl ?_) hcompat_b
        exact hg
      have hg4 : GoodAt st4 i len := by
        obtain ⟨ln, hln, hlen⟩ := hg3
        exact ⟨ln, by rw [h43]; exact hln, hlen⟩
      have hg5 : GoodAt st5 i len := ihc st4 st5 hst5 i len (Or.inl hg4) hcompat_c
      exact ihr _ st' hst' i len (Or.inl hg5) hcompat_r
    · have hb'cases : b' = b ∨ b' ∈ treeIds children ∨ b' ∈ treeIds rest := by
        simp only [treeIds, List.mem_cons, List.mem_append] at hb'
        tauto
      rcases hb'cases with rfl | hbc | hbr
      · have hg3 : GoodAt st3 i len := by
          refine renameInstList_uses _ _ st3 hst3 i len
            (Or.inr ⟨inst, hminst, hiid, hilen⟩) hcompat_b
        have hg4 : GoodAt st4 i len := by
          obtain ⟨ln, hln, hlen⟩ := hg3
          exact ⟨ln, by rw [h43]; exact hln, hlen⟩
        have hg5 : GoodAt st5 i len := ihc st4 st5 hst5 i len (Or.inl hg4) hcompat_c
        exact ihr _ st' hst' i len (Or.inl hg5) hcompat_r
      · have hg5 : GoodAt st5 i len := ihc st4 st5 hst5 i len
          (Or.inr ⟨b', hbc, inst, hminst, hiid, hilen⟩) hcompat_c
        exact ihr _ st' hst' i len (Or.inl hg5) hcompat_r
      · exact ihr _ st' hst' i len
          (Or.inr ⟨b', hbr, inst, hminst, hiid, hilen⟩) hcompat_r

theorem countP_eq_one_of_iff {l : List Nat} {f : Nat → Bool} {a : Nat}
    (hl : l.Nodup) (ha : a ∈ l) (hf : ∀ x, f x = true ↔ x = a) :
    l.countP f = 1 := by
  induction l with
  | nil => cases ha
  | cons x xs ih =>
    rw [List.countP_cons]
    rcases List.mem_cons.mp ha with rfl | hmem
    · rw [if_pos ((hf a).mpr rfl)]
      have hz : xs.countP f = 0 := by
        rw [List.countP_eq_zero]
        intro y hy hfy
        rw [(hf y).mp hfy] at hy
        exact (List.nodup_cons.mp hl).1 hy
      omega
    · have hxa : ¬ x = a := by
        intro he
        subst he
        exact (List.nodup_cons.mp hl).1 hmem
      rw [if_neg (fun hfx => hxa ((hf x).mp hfx))]
      rw [ih (List.nodup_cons.mp hl).2 hmem]

theorem slot_getSSAUses (φ : PhiInstructionNode) (e : Nat) (d : Nat)
    (h : slotAt φ e = [d]) : φ.GetSSAUses e = some (some [d]) := by
  unfold slotAt at h
  unfold PhiInstructionNode.GetSSAUses
  rw [List.getD_eq_getElem?_getD] at h
  cases hq : φ.definition_edges[e]? with
  | none =>
    rw [hq] at h
    exact absurd h (by simp)
  | some o =>
    rw [hq] at h
    cases o with
    | none => exact absurd h (by simp)
    | some l =>
      exact congrArg some (congrArg some (h : l = [d]))

/-- C1: after the renaming phase (`RenameAsSSA`) completes on a well-formed
CFG — a dominator tree spanning every region exactly once, mutually
consistent and duplicate-free successor/predecessor lists, and distinct
instruction identities — every register use of every instruction resolves to
exactly one definition, and every phi instruction has, at every predecessor
edge index, a `GetSSAUses` collection with exactly one element. -/
theorem renameAsSSA_true_ssa (g : RenGraph) (stF : RenState)
    (hdone : RenameAsSSA g = some stF)
    (hcov : ∀ b, b ∈ treeIds [g.domTree] ↔ b < g.n)
    (hnd : (treeIds [g.domTree]).Nodup)
    (hcons : ∀ p s, p < g.n → s < g.n →
      (s ∈ (g.regions p).succs ↔ p ∈ (g.regions s).preds))
    (hsuccnd : ∀ p, (g.regions p).succs.Nodup)
    (hprednd : ∀ s, s < g.n → (g.regions s).preds.Nodup)
    (hpredrange : ∀ s, s < g.n → ∀ p ∈ (g.regions s).preds, p < g.n)
    (hids : ∀ b b', b < g.n → b' < g.n → ∀ i1 ∈ (g.regions b).instructions,
      ∀ i2 ∈ (g.regions b').instructions, i2.id = i1.id → i2 = i1) :
    (∀ b, b < g.n → ∀ inst ∈ (g.regions b).instructions,
      ∃ ln, stF.ssaUses inst.id = some ln ∧ ln.length = inst.uses.length) ∧
    (∀ s, s < g.n → ∀ φ ∈ stF.phis s, ∀ e, e < (g.regions s).preds.length →
      ∃ d, φ.GetSSAUses e = some (some [d])) := by
  have hdone' : renameForest g [g.domTree]
      ⟨[g.params.foldl (fun sc pr => (pr.2, pr.1) :: sc) []],
        fun _ => none,
        fun s => (g.regions s).phiRegs.map (fun pr => PhiInstructionNode.mkPhi pr.2)⟩ =
      some stF := hdone
  constructor
  · intro b hb inst hminst
    refine renameForest_uses g [g.domTree] _ stF hdone' inst.id inst.uses.length
      (Or.inr ⟨b, (hcov b).mpr hb, inst, hminst, rfl, rfl⟩) ?_
    intro b' hb' inst' hminst' hid
    rw [hids b b' hb ((hcov b').mp hb') inst hminst inst' hminst' hid]
  · have hPC0 : PhiCount g
        ⟨[g.params.foldl (fun sc pr => (pr.2, pr.1) :: sc) []],
          fun _ => none,
          fun s => (g.regions s).phiRegs.map (fun pr => PhiInstructionNode.mkPhi pr.2)⟩
        [] := by
      intro s' e' k hk
      simp only [List.length_map] at hk
      show (slotAt (((g.regions s').phiRegs.map
        (fun pr => PhiInstructionNode.mkPhi pr.2)).getD k (PhiInstructionNode.mkPhi 0))
        e').length = edgeCount g s' e' []
      rw [List.getD_eq_getElem?_getD, List.getElem?_map,
        List.getElem?_eq_getElem (by simpa using hk)]
      show (slotAt (PhiInstructionNode.mkPhi ((g.regions s').phiRegs[k]).2) e').length =
        edgeCount g s' e' []
      unfold slotAt PhiInstructionNode.mkPhi edgeCount
      simp
    have hPCF := renameForest_phi_count g hsuccnd [g.domTree] _ stF [] hdone' hPC0
    intro s hs φ hφ e he
    obtain ⟨⟨k, hk⟩, hget⟩ := List.mem_iff_get.mp hφ
    have hgetD : (stF.phis s).getD k (PhiInstructionNode.mkPhi 0) = φ := by
      rw [List.getD_eq_getElem?_getD, List.getElem?_eq_getElem hk]
      exact hget
    have hslotlen := hPCF s e k hk
    rw [hgetD] at hslotlen
    have hcnt1 : edgeCount g s e ([] ++ treeIds [g.domTree]) = 1 := by
      unfold edgeCount
      have hplt : (g.regions s).preds.getD e 0 ∈ (g.regions s).preds := by
        rw [getD_eq_getElem_of_lt he]
        exact List.getElem_mem _
      refine @countP_eq_one_of_iff _ _ ((g.regions s).preds.getD e 0) hnd ?_ ?_
      · exact (hcov _).mpr (hpredrange s hs _ hplt)
      · intro x
        rw [decide_eq_true_iff]
        constructor
        · rintro ⟨-, hpe⟩
          obtain ⟨h1, h2, -⟩ := predIndex_some x (g.regions s).preds e hpe
          exact h2.symm
        · rintro rfl
          refine ⟨?_, ?_⟩
          · exact (hcons _ s (hpredrange s hs _ hplt) hs).mpr hplt
          · exact predIndex_of_getD _ (g.regions s).preds e he rfl (hprednd s hs)
    rw [hcnt1] at hslotlen
    obtain ⟨d, hd⟩ := List.length_eq_one.mp hslotlen
    exact ⟨d, slot_getSSAUses φ e d hd⟩

/-- The end-to-end diamond scenario: entry region 0 defines register 1
(instruction 10), branch regions 1 and 2 redefine it (instructions 11, 12),
and the join region 3 holds a phi for register 1 (node 20) and uses
register 1 (instruction 13). -/
def renExample : RenGraph :=
  ⟨4,
    fun b =>
      if b = 0 then ⟨[⟨10, [], [1]⟩], [], [1, 2], []⟩
      else if b = 1 then ⟨[⟨11, [], [1]⟩], [], [3], [0]⟩
      else if b = 2 then ⟨[⟨12, [], [1]⟩], [], [3], [0]⟩
      else if b = 3 then ⟨[⟨13, [1], []⟩], [(20, 1)], [], [1, 2]⟩
      else ⟨[], [], [], []⟩,
    DomTree.node 0 [DomTree.node 1 [], DomTree.node 2 [], DomTree.node 3 []],
    []⟩

theorem renameAsSSA_true_ssa_witness :
    (RenameAsSSA renExample).isSome = true ∧
      (∀ b, b < renExample.n → ∀ inst ∈ (renExample.regions b).instructions,
        ∃ ln, ((RenameAsSSA renExample).getD
          ⟨[], fun _ => none, fun _ => []⟩).ssaUses inst.id = some ln ∧
          ln.length = inst.uses.length) ∧
      ∀ φ ∈ ((RenameAsSSA renExample).getD
          ⟨[], fun _ => none, fun _ => []⟩).phis 3,
        ∀ e, e < (renExample.regions 3).preds.length →
          ∃ d, φ.GetSSAUses e = some (some [d]) := by
  have hsome : (RenameAsSSA renExample).isSome = true := by
    simp [RenameAsSSA, renameForest, renameInstList, renameInst, fillSuccs, setPhiDefs,
      setPhiList, lookupAll, scopedLookup, scopedAdd, predIndex,
      PhiInstructionNode.RenameToSSA, padTo, renExample, PhiInstructionNode.mkPhi]
  have hdone : RenameAsSSA renExample = some ((RenameAsSSA renExample).getD
      ⟨[], fun _ => none, fun _ => []⟩) := by
    cases ho : RenameAsSSA renExample with
    | none => rw [ho] at hsome; exact absurd hsome (by simp)
    | some st => rfl
  have htree : treeIds [renExample.domTree] = [0, 1, 2, 3] := by
    simp [renExample, treeIds]
  have hmain := renameAsSSA_true_ssa renExample
    ((RenameAsSSA renExample).getD ⟨[], fun _ => none, fun _ => []⟩) hdone
    (by intro b; rw [htree]; simp [renExample]; omega)
    (by rw [htree]; decide)
    (by
      intro p s hp hs
      simp only [renExample] at hp hs
      interval_cases p <;> interval_cases s <;> decide)
    (by
      intro p
      simp only [renExample]
      split_ifs <;> decide)
    (by
      intro s hs
      simp only [renExample] at hs
      interval_cases s <;> decide)
    (by
      intro s hs
      simp only [renExample] at hs
      interval_cases s <;> decide)
    (by
      intro b b' hb hb'
      simp only [renExample] at hb hb'
      interval_cases b <;> interval_cases b' <;> decide)
  exact ⟨hsome, hmain.1, hmain.2 3 (by decide)⟩

/-! ### Additional facts about the RPO traversal, for the dominator proof -/

/-- A further invariant of the DFS: every assigned region other than the entry
has a CFG predecessor that is either already assigned with a strictly smaller
index, or still on the DFS stack (`VISITING`) so that its eventual index lies
below the current counter; every successor of an assigned region has been
visited; and assigned indices are pairwise distinct. -/
def RpoInv2 (g : Cfg) (s : RpoState) : Prop :=
  (∀ x, Assigned s x → ¬ x = 0 →
    ∃ p, x ∈ g.succs p ∧
      ((Assigned s p ∧ s.rpo p < s.rpo x) ∨
        (s.rpo p = VISITING ∧ s.crt_rpo < s.rpo x))) ∧
  (∀ a, Assigned s a → ∀ c ∈ g.succs a, ¬ s.rpo c = NOT_VISITED) ∧
  (∀ x y, Assigned s x → Assigned s y → s.rpo x = s.rpo y → x = y)

/-- The companion of `rpoVisit_spec`: under the same preconditions, plus the
fact that every worklist node is the entry or a successor of a region on the
DFS stack, the invariant `RpoInv2` is preserved by the traversal. -/
theorem rpoVisit_spec2 (g : Cfg) (hsucc : ∀ a, a < g.n → ∀ c ∈ g.succs a, c < g.n) :
    ∀ (fuel : Nat) (bs : List Nat) (s : RpoState),
      (∀ b ∈ bs, b < g.n) →
      nvCount g s + bs.length + nvSuccSum g s ≤ fuel →
      RpoInv g s →
      (∀ v, s.rpo v = VISITING → ∀ b ∈ bs, Reach g v b) →
      RpoInv2 g s →
      (∀ b ∈ bs, b = 0 ∨ ∃ p, b ∈ g.succs p ∧ s.rpo p = VISITING) →
      RpoInv2 g (rpoVisit g fuel bs s) := by
  intro fuel
  induction fuel with
  | zero =>
    intro bs s hbs hfuel hinv hH hI2 hD
    match bs with
    | [] =>
      rw [rpoVisit_nil]
      exact hI2
    | b :: bs =>
      simp only [List.length_cons] at hfuel
      omega
  | succ fuel ih =>
    intro bs s hbs hfuel hinv hH hI2 hD
    match bs with
    | [] =>
      rw [rpoVisit_nil]
      exact hI2
    | b :: bs =>
      by_cases hb : s.rpo b = NOT_VISITED
      · rw [rpoVisit_cons_pos g fuel b bs s hb]
        obtain ⟨hV, hC, hM, hE⟩ := hinv
        have hbn : b < g.n := hbs b (List.mem_cons_self b bs)
        have hsbn : ∀ c ∈ g.succs b, c < g.n := hsucc b hbn
        have hbmem_nv : b ∈ nvSet g s := by
          simp [nvSet, hbn, hb]
        set s1 : RpoState := ⟨fun x => if x = b then VISITING else s.rpo x, s.crt_rpo⟩
          with hs1
        have hs1b : s1.rpo b = VISITING := by simp [hs1]
        have hs1x : ∀ x, ¬ x = b → s1.rpo x = s.rpo x := by
          intro x hx
          simp [hs1, hx]
        have hs1crt : s1.crt_rpo = s.crt_rpo := rfl
        have hinv1 : RpoInv g s1 := by
          refine ⟨?_, ?_, ?_, ?_⟩
          · intro x hx
            have hxb : ¬ x = b := by
              intro he
              subst he
              exact hx.2 hs1b
            rw [hs1crt, hs1x x hxb]
            exact hV x ((assigned_congr (hs1x x hxb)).mp hx)
          · rw [hs1crt, hs1, assignedSet_mark g s b hb]
            exact hC
          · intro x hx
            have hxb : ¬ x = b := by
              intro he
              subst he
              exact hx hbn
            rw [hs1x x hxb]
            exact hM x hx
          · intro a ha c hc
            have hab : ¬ a = b := by
              intro he
              subst he
              exact ha.2 hs1b
            have haS : Assigned s a := (assigned_congr (hs1x a hab)).mp ha
            rcases hE a haS c hc with ⟨hAc, hlt⟩ | ⟨hvis', hr⟩ | hcyc
            · have hcb : ¬ c = b := by
                intro he
                subst he
                exact hAc.1 hb
              exact Or.inl ⟨(assigned_congr (hs1x c hcb)).mpr hAc,
                by rw [hs1x a hab, hs1x c hcb]; exact hlt⟩
            · have hcb : ¬ c = b := by
                intro he
                subst he
                rw [hb] at hvis'
                exact nv_ne_visiting hvis'
              exact Or.inr (Or.inl ⟨by rw [hs1x c hcb]; exact hvis', hr⟩)
            · exact Or.inr (Or.inr hcyc)
        have hH1 : ∀ v, s1.rpo v = VISITING → ∀ c ∈ g.succs b, Reach g v c := by
          intro v hv c hc
          by_cases hvb : v = b
          · subst hvb
            exact Reach.tail (Reach.refl v) hc
          · have : s.rpo v = VISITING := by rw [← hs1x v hvb]; exact hv
            exact Reach.tail (hH v this b (List.mem_cons_self b bs)) hc
        have hI21 : RpoInv2 g s1 := by
          refine ⟨?_, ?_, ?_⟩
          · intro x hx hx0
            have hxb : ¬ x = b := by
              intro he
              subst he
              exact hx.2 hs1b
            have hxs : Assigned s x := (assigned_congr (hs1x x hxb)).mp hx
            obtain ⟨p, hps, hdisj⟩ := hI2.1 x hxs hx0
            refine ⟨p, hps, ?_⟩
            rcases hdisj with ⟨hap, hlt⟩ | ⟨hpv, hlt⟩
            · have hpb : ¬ p = b := by
                intro he
                subst he
                exact hap.1 hb
              exact Or.inl ⟨(assigned_congr (hs1x p hpb)).mpr hap,
                by rw [hs1x p hpb, hs1x x hxb]; exact hlt⟩
            · have hpb : ¬ p = b := by
                intro he
                subst he
                rw [hb] at hpv
                exact nv_ne_visiting hpv
              exact Or.inr ⟨by rw [hs1x p hpb]; exact hpv,
                by rw [hs1crt, hs1x x hxb]; exact hlt⟩
          · intro a ha c hc
            have hab : ¬ a = b := by
              intro he
              subst he
              exact ha.2 hs1b
            have haS : Assigned s a := (assigned_congr (hs1x a hab)).mp ha
            have hcnv := hI2.2.1 a haS c hc
            have hcb : ¬ c = b := by
              intro he
              subst he
              exact hcnv hb
            rw [hs1x c hcb]
            exact hcnv
          · intro x y hx hy hxy
            have hxb : ¬ x = b := by
              intro he
              subst he
              exact hx.2 hs1b
            have hyb : ¬ y = b := by
              intro he
              subst he
              exact hy.2 hs1b
            rw [hs1x x hxb, hs1x y hyb] at hxy
            exact hI2.2.2 x y ((assigned_congr (hs1x x hxb)).mp hx)
              ((assigned_congr (hs1x y hyb)).mp hy) hxy
        have hD1 : ∀ c ∈ g.succs b, c = 0 ∨ ∃ p, c ∈ g.succs p ∧ s1.rpo p = VISITING :=
          fun c hc => Or.inr ⟨b, hc, hs1b⟩
        have hnv1 : nvSet g s1 = (nvSet g s).erase b := by
          rw [hs1]
          exact nvSet_mark g s b
        have hcount1 : nvCount g s1 + 1 = nvCount g s := by
          unfold nvCount
          rw [hnv1, Finset.card_erase_of_mem hbmem_nv]
          have : 0 < (nvSet g s).card := Finset.card_pos.mpr ⟨b, hbmem_nv⟩
          omega
        have hsum1 : nvSuccSum g s1 + (g.succs b).length = nvSuccSum g s := by
          unfold nvSuccSum
          rw [hnv1]
          exact Finset.sum_erase_add (nvSet g s) _ hbmem_nv
        have hfuel1 : nvCount g s1 + (g.succs b).length + nvSuccSum g s1 ≤ fuel := by
          simp only [List.length_cons] at hfuel
          omega
        obtain ⟨P1a, P2a, P3a, P4a, hinv2⟩ :=
          rpoVisit_spec g hsucc fuel (g.succs b) s1 hsbn hfuel1 hinv1 hH1
        have hI2s2 : RpoInv2 g (rpoVisit g fuel (g.succs b) s1) :=
          ih (g.succs b) s1 hsbn hfuel1 hinv1 hH1 hI21 hD1
        set s2 : RpoState := rpoVisit g fuel (g.succs b) s1 with hs2
        have hs2b : s2.rpo b = VISITING := by
          rw [P1a b (by rw [hs1b]; intro he; exact nv_ne_visiting he.symm)]
          exact hs1b
        have hvisback : ∀ x, s2.rpo x = VISITING → s1.rpo x = VISITING := by
          intro x hx
          by_cases hnv : s1.rpo x = NOT_VISITED
          · by_cases hch : s2.rpo x = s1.rpo x
            · rw [hch, hnv] at hx
              exact absurd hx nv_ne_visiting
            · obtain ⟨_, hAss, _⟩ := P2a x hch
              exact absurd hx hAss.2
          · rw [P1a x hnv] at hx
            exact hx
        have hcrt2 : 0 ≤ s2.crt_rpo := crt_nonneg g s2 hinv2
        set s3 : RpoState := ⟨fun x => if x = b then s2.crt_rpo else s2.rpo x,
          s2.crt_rpo - 1⟩ with hs3
        have hs3b : s3.rpo b = s2.crt_rpo := by simp [hs3]
        have hs3x : ∀ x, ¬ x = b → s3.rpo x = s2.rpo x := by
          intro x hx
          simp [hs3, hx]
        have hs3crt : s3.crt_rpo = s2.crt_rpo - 1 := rfl
        have hAss3b : Assigned s3 b := by
          constructor
          · rw [hs3b]
            unfold NOT_VISITED
            omega
          · rw [hs3b]
            unfold VISITING
            omega
        obtain ⟨hV2, hC2, hM2, hE2⟩ := hinv2
        have hinv3 : RpoInv g s3 := by
          refine ⟨?_, ?_, ?_, ?_⟩
          · intro x hx
            by_cases hxb : x = b
            · subst hxb
              rw [hs3b, hs3crt]
              omega
            · rw [hs3crt, hs3x x hxb]
              have := hV2 x ((assigned_congr (hs3x x hxb)).mp hx)
              omega
          · rw [hs3crt, hs3, assignedSet_assign g s2 b hbn hs2b hcrt2]
            rw [Finset.card_insert_of_not_mem (by
              simp only [assignedSet, Finset.mem_filter, Finset.mem_range]
              intro hmem
              exact hmem.2.2 hs2b)]
            rw [hC2]
            push_cast
            ring
          · intro x hx
            have hxb : ¬ x = b := by
              intro he
              subst he
              exact hx hbn
            rw [hs3x x hxb]
            exact hM2 x hx
          · intro a ha c hc
            by_cases hab : a = b
            · rw [hab] at ha hc ⊢
              have hcnv : ¬ s2.rpo c = NOT_VISITED := P4a c hc
              by_cases hAc : Assigned s2 c
              · have hcb : ¬ c = b := by
                  intro he
                  subst he
                  exact hAc.2 hs2b
                refine Or.inl ⟨(assigned_congr (hs3x c hcb)).mpr hAc, ?_⟩
                rw [hs3b, hs3x c hcb]
                exact hV2 c hAc
              · have hcv : s2.rpo c = VISITING := by
                  by_contra hcv'
                  exact hAc ⟨hcnv, hcv'⟩
                have hcv1 : s1.rpo c = VISITING := hvisback c hcv
                by_cases hcb : c = b
                · subst hcb
                  exact Or.inr (Or.inr (ReachPlus.single hc))
                · have hcvS : s.rpo c = VISITING := by
                    rw [← hs1x c hcb]
                    exact hcv1
                  refine Or.inr (Or.inl ⟨?_, hH c hcvS b (List.mem_cons_self b bs)⟩)
                  rw [hs3x c hcb]
                  exact hcv
            · have haS2 : Assigned s2 a := (assigned_congr (hs3x a hab)).mp ha
              rcases hE2 a haS2 c hc with ⟨hAc, hlt⟩ | ⟨hvis', hr⟩ | hcyc
              · have hcb : ¬ c = b := by
                  intro he
                  subst he
                  exact hAc.2 hs2b
                exact Or.inl ⟨(assigned_congr (hs3x c hcb)).mpr hAc,
                  by rw [hs3x a hab, hs3x c hcb]; exact hlt⟩
              · by_cases hcb : c = b
                · subst hcb
                  exact Or.inr (Or.inr (Reach.toPlus hr hc))
                · exact Or.inr (Or.inl ⟨by rw [hs3x c hcb]; exact hvis', hr⟩)
              · exact Or.inr (Or.inr hcyc)
        have hH3 : ∀ v, s3.rpo v = VISITING → ∀ c ∈ bs, Reach g v c := by
          intro v hv c hc
          have hvb : ¬ v = b := by
            intro he
            subst he
            rw [hs3b] at hv
            rw [VISITING] at hv
            omega
          have hv2 : s2.rpo v = VISITING := by
            rw [← hs3x v hvb]
            exact hv
          have hv1 : s1.rpo v = VISITING := hvisback v hv2
          have hvS : s.rpo v = VISITING := by
            rw [← hs1x v hvb]
            exact hv1
          exact hH v hvS c (List.mem_cons_of_mem b hc)
        have hI23 : RpoInv2 g s3 := by
          refine ⟨?_, ?_, ?_⟩
          · intro x hx hx0
            by_cases hxb : x = b
            · rw [hxb] at hx hx0 ⊢
              rcases hD b (List.mem_cons_self b bs) with h0 | ⟨p, hps, hpv⟩
              · exact absurd h0 hx0
              · have hpb : ¬ p = b := by
                  intro he
                  subst he
                  rw [hb] at hpv
                  exact nv_ne_visiting hpv
                have hpv1 : s1.rpo p = VISITING := by
                  rw [hs1x p hpb]
                  exact hpv
                have hpv2 : s2.rpo p = VISITING := by
                  rw [P1a p (by rw [hpv1]; intro he; exact nv_ne_visiting he.symm)]
                  exact hpv1
                refine ⟨p, hps, Or.inr ⟨by rw [hs3x p hpb]; exact hpv2, ?_⟩⟩
                rw [hs3b, hs3crt]
                omega
            · have hxs : Assigned s2 x := (assigned_congr (hs3x x hxb)).mp hx
              obtain ⟨p, hps, hdisj⟩ := hI2s2.1 x hxs hx0
              rcases hdisj with ⟨hap, hlt⟩ | ⟨hpv, hlt⟩
              · have hpb : ¬ p = b := by
                  intro he
                  subst he
                  exact hap.2 hs2b
                exact ⟨p, hps, Or.inl ⟨(assigned_congr (hs3x p hpb)).mpr hap,
                  by rw [hs3x p hpb, hs3x x hxb]; exact hlt⟩⟩
              · by_cases hpb : p = b
                · subst hpb
                  refine ⟨p, hps, Or.inl ⟨hAss3b, ?_⟩⟩
                  rw [hs3b, hs3x x hxb]
                  exact hlt
                · refine ⟨p, hps, Or.inr ⟨by rw [hs3x p hpb]; exact hpv, ?_⟩⟩
                  rw [hs3crt, hs3x x hxb]
                  omega
          · intro a ha c hc
            by_cases hab : a = b
            · rw [hab] at ha hc
              by_cases hcb : c = b
              · rw [hcb, hs3b]
                unfold NOT_VISITED
                omega
              · rw [hs3x c hcb]
                exact P4a c hc
            · have haS2 : Assigned s2 a := (assigned_congr (hs3x a hab)).mp ha
              have := hI2s2.2.1 a haS2 c hc
              by_cases hcb : c = b
              · rw [hcb, hs3b]
                unfold NOT_VISITED
                omega
              · rw [hs3x c hcb]
                exact this
          · intro x y hx hy hxy
            by_cases hxb : x = b
            · by_cases hyb : y = b
              · rw [hxb, hyb]
              · rw [hxb] at hxy
                have hyA2 : Assigned s2 y := (assigned_congr (hs3x y hyb)).mp hy
                have hlt := hV2 y hyA2
                rw [hs3b, hs3x y hyb] at hxy
                omega
            · by_cases hyb : y = b
              · rw [hyb] at hxy
                have hxA2 : Assigned s2 x := (assigned_congr (hs3x x hxb)).mp hx
                have hlt := hV2 x hxA2
                rw [hs3b, hs3x x hxb] at hxy
                omega
              · rw [hs3x x hxb, hs3x y hyb] at hxy
                exact hI2s2.2.2 x y ((assigned_congr (hs3x x hxb)).mp hx)
                  ((assigned_congr (hs3x y hyb)).mp hy) hxy
        have hD3 : ∀ c ∈ bs, c = 0 ∨ ∃ p, c ∈ g.succs p ∧ s3.rpo p = VISITING := by
          intro c hc
          rcases hD c (List.mem_cons_of_mem b hc) with h0 | ⟨p, hps, hpv⟩
          · exact Or.inl h0
          · have hpb : ¬ p = b := by
              intro he
              subst he
              rw [hb] at hpv
              exact nv_ne_visiting hpv
            have hpv1 : s1.rpo p = VISITING := by
              rw [hs1x p hpb]
              exact hpv
            have hpv2 : s2.rpo p = VISITING := by
              rw [P1a p (by rw [hpv1]; intro he; exact nv_ne_visiting he.symm)]
              exact hpv1
            exact Or.inr ⟨p, hps, by rw [hs3x p hpb]; exact hpv2⟩
        have hnv21 : nvSet g s2 ⊆ nvSet g s1 := by
          intro x hx
          simp only [nvSet, Finset.mem_filter, Finset.mem_range] at hx ⊢
          refine ⟨hx.1, ?_⟩
          by_contra hc
          rw [P1a x hc] at hx
          exact hc hx.2
        have hnv3 : nvSet g s3 = nvSet g s2 := by
          rw [hs3]
          exact nvSet_assign g s2 b hs2b hcrt2
        have hfuel3 : nvCount g s3 + bs.length + nvSuccSum g s3 ≤ fuel := by
          have hcard : nvCount g s3 ≤ nvCount g s1 := by
            unfold nvCount
            rw [hnv3]
            exact Finset.card_le_card hnv21
          have hsum : nvSuccSum g s3 ≤ nvSuccSum g s1 := by
            unfold nvSuccSum
            rw [hnv3]
            exact Finset.sum_le_sum_of_subset hnv21
          simp only [List.length_cons] at hfuel
          omega
        have hbs' : ∀ c ∈ bs, c < g.n := fun c hc => hbs c (List.mem_cons_of_mem b hc)
        exact ih bs s3 hbs' hfuel3 hinv3 hH3 hI23 hD3
      · rw [rpoVisit_cons_neg g fuel b bs s hb]
        have hfuel' : nvCount g s + bs.length + nvSuccSum g s ≤ fuel := by
          simp only [List.length_cons] at hfuel
          omega
        exact ih bs s
          (fun c hc => hbs c (List.mem_cons_of_mem b hc)) hfuel' hinv
          (fun v hv c hc => hH v hv c (List.mem_cons_of_mem b hc)) hI2
          (fun c hc => hD c (List.mem_cons_of_mem b hc))

/-- The facts about `ComputeRPO` that the dominator computation relies on:
a region is reachable from the entry exactly when it got a real index;
indices of reachable regions are pairwise distinct; and every reachable
region other than the entry has a reachable CFG predecessor with a strictly
smaller index (its DFS tree parent). -/
theorem computeRPO_facts (g : Cfg) (hn : 0 < g.n)
    (hsucc : ∀ a, a < g.n → ∀ c ∈ g.succs a, c < g.n) :
    (∀ x, Reach g 0 x ↔
      (¬ ComputeRPO g x = NOT_VISITED ∧ ¬ ComputeRPO g x = VISITING)) ∧
    (∀ x y, Reach g 0 x → Reach g 0 y → ComputeRPO g x = ComputeRPO g y → x = y) ∧
    (∀ x, Reach g 0 x → ¬ x = 0 →
      ∃ p, x ∈ g.succs p ∧ Reach g 0 p ∧ ComputeRPO g p < ComputeRPO g x) := by
  have hbs : ∀ b ∈ [0], b < g.n := by
    intro b hb
    rcases List.mem_singleton.mp hb with rfl
    exact hn
  have hfuel : nvCount g (initRpoState g) + ([0] : List Nat).length +
      nvSuccSum g (initRpoState g) ≤ g.n + 1 + sumSuccs g := by
    unfold nvCount nvSuccSum
    rw [nvSet_init]
    simp [sumSuccs]
  have hH : ∀ v, (initRpoState g).rpo v = VISITING → ∀ b ∈ ([0] : List Nat),
      Reach g v b := by
    intro v hv
    exact absurd hv nv_ne_visiting
  have hI2init : RpoInv2 g (initRpoState g) := by
    refine ⟨?_, ?_, ?_⟩
    · intro x hx
      exact absurd rfl hx.1
    · intro a ha
      exact absurd rfl ha.1
    · intro x y hx
      exact absurd rfl hx.1
  have hDinit : ∀ b ∈ ([0] : List Nat), b = 0 ∨
      ∃ p, b ∈ g.succs p ∧ (initRpoState g).rpo p = VISITING := by
    intro b hb
    rcases List.mem_singleton.mp hb with rfl
    exact Or.inl rfl
  obtain ⟨P1, P2, P3, P4, hinvF⟩ :=
    rpoVisit_spec g hsucc (g.n + 1 + sumSuccs g) [0] (initRpoState g) hbs hfuel
      (initRpoState_inv g) hH
  have hI2F := rpoVisit_spec2 g hsucc (g.n + 1 + sumSuccs g) [0] (initRpoState g) hbs
    hfuel (initRpoState_inv g) hH hI2init hDinit
  have hCR : ∀ x, ComputeRPO g x =
      (rpoVisit g (g.n + 1 + sumSuccs g) [0] (initRpoState g)).rpo x := fun x => rfl
  set sF : RpoState := rpoVisit g (g.n + 1 + sumSuccs g) [0] (initRpoState g) with hsF
  have hnoVis : ∀ x, ¬ sF.rpo x = VISITING := by
    intro x hx
    have hch : ¬ sF.rpo x = (initRpoState g).rpo x := by
      intro he
      rw [he] at hx
      exact nv_ne_visiting hx
    obtain ⟨_, hAss, _⟩ := P2 x hch
    exact hAss.2 hx
  have hAssignedReach : ∀ x, Assigned sF x → Reach g 0 x := by
    intro x hx
    by_cases hch : sF.rpo x = (initRpoState g).rpo x
    · exact absurd hch hx.1
    · obtain ⟨_, _, b, hbm, hr⟩ := P2 x hch
      rcases List.mem_singleton.mp hbm with rfl
      exact hr
  have hReachAssigned : ∀ x, Reach g 0 x → Assigned sF x := by
    intro x hx
    induction hx with
    | refl =>
      exact ⟨P4 0 (List.mem_singleton.mpr rfl), hnoVis 0⟩
    | tail hr hc ihx =>
      rename_i b' c'
      have hcnv := hI2F.2.1 b' ihx c' hc
      exact ⟨hcnv, hnoVis c'⟩
  refine ⟨?_, ?_, ?_⟩
  · intro x
    rw [hCR x]
    constructor
    · intro hx
      exact hReachAssigned x hx
    · intro hx
      exact hAssignedReach x hx
  · intro x y hx hy hxy
    rw [hCR x, hCR y] at hxy
    exact hI2F.2.2 x y (hReachAssigned x hx) (hReachAssigned y hy) hxy
  · intro x hx hx0
    obtain ⟨p, hps, hdisj⟩ := hI2F.1 x (hReachAssigned x hx) hx0
    rcases hdisj with ⟨hap, hlt⟩ | ⟨hpv, _⟩
    · exact ⟨p, hps, hAssignedReach p hap, by rw [hCR p, hCR x]; exact hlt⟩
    · exact absurd hpv (hnoVis p)

/-! ### Immediate dominators -/

/-- The immediate-dominator assignment: each region's `idom_` field, `none`
standing for the `NULL` pointer. -/
abbrev Idom := Nat → Option Nat

/-- The predecessors of region `b`: regions with an edge into `b`. -/
def cfgPreds (g : Cfg) (b : Nat) : List Nat :=
  (List.range g.n).filter (fun a => decide (b ∈ g.succs a))

/-- A region counts as processed for the dominator fixpoint when it is the
entry (which dominates itself) or its `idom_` has been set. -/
def processedB (idom : Idom) (p : Nat) : Bool :=
  decide (p = 0) || (idom p).isSome

/-- Setting region `b`'s `idom_` field to `z`. -/
def idomUpdate (idom : Idom) (b z : Nat) : Idom :=
  fun x => if x = b then some z else idom x

/-- Modelled from the spec: `SeaGraph::Intersect`'s body is not under `src/`
(the header only declares it, as returning the lowest common ancestor in the
dominator tree). §4.3.3: walk both regions up their partially built dominator
chains, advancing whichever has the larger RPO number, until the chains meet.
Two distinct fingers with equal RPO numbers would loop forever in the nested
`while` formulation, and a missing `idom_` link dereferences `NULL`; both are
modelled as `none`. `fuel` bounds the walk for totality. -/
def intersectFuel (idom : Idom) (rho : Nat → Int) : Nat → Nat → Nat → Option Nat
  | 0, _, _ => none
  | fuel+1, i, j =>
    if i = j then some i
    else if rho j < rho i then
      match idom i with
      | none => none
      | some i2 => intersectFuel idom rho fuel i2 j
    else if rho i < rho j then
      match idom j with
      | none => none
      | some j2 => intersectFuel idom rho fuel i j2
    else none

/-- Folding `Intersect` over the remaining processed predecessors, starting
from the first one. -/
def intersectAll (idom : Idom) (rho : Nat → Int) (ifuel : Nat) :
    List Nat → Nat → Option Nat
  | [], acc => some acc
  | p :: ps, acc =>
    match intersectFuel idom rho ifuel p acc with
    | none => none
    | some z => intersectAll idom rho ifuel ps z

/-- The already-processed predecessors of `b`, in region order. -/
def processedPreds (g : Cfg) (idom : Idom) (b : Nat) : List Nat :=
  (cfgPreds g b).filter (fun p => processedB idom p)

/-- Modelled from the spec: one pass of `ComputeIDominators`'s outer loop
(§4.3.3): for every region other than the entry, in RPO order, compute a new
candidate dominator as the intersection of the already-processed
predecessors' current dominator-tree paths, record whether anything changed.
Regions with no processed predecessor yet are skipped. -/
def idomPass (g : Cfg) (rho : Nat → Int) (ifuel : Nat) :
    List Nat → Idom → Bool → Option (Idom × Bool)
  | [], idom, ch => some (idom, ch)
  | b :: bs, idom, ch =>
    if b = 0 then idomPass g rho ifuel bs idom ch
    else
      match processedPreds g idom b with
      | [] => idomPass g rho ifuel bs idom ch
      | p :: ps =>
        match intersectAll idom rho ifuel ps p with
        | none => none
        | some z =>
          idomPass g rho ifuel bs (idomUpdate idom b z)
            (ch || decide (¬ idom b = some z))

/-- Modelled from the spec: iterate full passes until none changes anything;
`pfuel` bounds the number of passes for totality. -/
def idomIter (g : Cfg) (rho : Nat → Int) (ifuel : Nat) (order : List Nat) :
    Nat → Idom → Option Idom
  | 0, _ => none
  | pfuel+1, idom =>
    match idomPass g rho ifuel order idom false with
    | none => none
    | some (idom2, ch) =>
      if ch then idomIter g rho ifuel order pfuel idom2 else some idom2

/-- Insertion into a list kept sorted by ascending RPO number. -/
def insertByRpo (rho : Nat → Int) (b : Nat) : List Nat → List Nat
  | [] => [b]
  | c :: cs => if rho b ≤ rho c then b :: c :: cs else c :: insertByRpo rho b cs

/-- Sorting a list of regions by ascending RPO number. -/
def sortByRpo (rho : Nat → Int) (l : List Nat) : List Nat :=
  l.foldr (insertByRpo rho) []

/-- Modelled from the spec: `SeaGraph::ComputeIDominators` (§4.3.3; body not
under `src/`). Compute RPO, then run the Cooper–Harvey–Kennedy fixpoint over
the regions in RPO order, starting from all `idom_` fields `NULL`, until a
full pass changes nothing. -/
def ComputeIDominators (g : Cfg) (pfuel : Nat) : Option Idom :=
  idomIter g (ComputeRPO g) (2 * g.n + 2)
    (sortByRpo (ComputeRPO g) (List.range g.n)) pfuel (fun _ => none)

/-- `PathTo g b π`: `π` is a CFG path from the entry region `0` to `b`,
listing the regions traversed in order. -/
inductive PathTo (g : Cfg) : Nat → List Nat → Prop
  | entry : PathTo g 0 [0]
  | step {b c : Nat} {l : List Nat} : PathTo g b l → c ∈ g.succs b →
      PathTo g c (l ++ [c])

/-- `Dom g d b`: `d` dominates `b` in the standard sense — every path from
the entry to `b` passes through `d`. -/
def Dom (g : Cfg) (d b : Nat) : Prop := ∀ l, PathTo g b l → d ∈ l

/-- `InChain idom b c`: `c` lies on the dominator chain of `b` (inclusive),
i.e. it is reached from `b` by following `idom_` links. -/
inductive InChain (idom : Idom) : Nat → Nat → Prop
  | refl (b : Nat) : InChain idom b b
  | step {b d c : Nat} : idom b = some d → InChain idom d c → InChain idom b c

/-- The state invariant of the dominator fixpoint: the entry has no `idom_`;
`idom_` links strictly decrease the RPO number; only reachable non-entry
regions are assigned; chains end at the entry, through processed regions;
every true dominator of a processed region lies on its chain (the chain
over-approximates the dominator set from above); and along a chain, a true
dominator dominates every chain element below it. -/
def IdomInv (g : Cfg) (rho : Nat → Int) (idom : Idom) : Prop :=
  idom 0 = none ∧
  (∀ b d, idom b = some d → rho d < rho b) ∧
  (∀ b, (idom b).isSome → Reach g 0 b ∧ ¬ b = 0) ∧
  (∀ b d, idom b = some d → InChain idom d 0) ∧
  (∀ y x, (idom y).isSome → Dom g x y → InChain idom y x) ∧
  (∀ y x c, (idom y).isSome → Dom g x y → InChain idom y c → InChain idom c x →
    Dom g x c)

theorem mem_cfgPreds (g : Cfg) (b p : Nat) :
    p ∈ cfgPreds g b ↔ p < g.n ∧ b ∈ g.succs p := by
  simp [cfgPreds, List.mem_filter, List.mem_range]

theorem mem_processedPreds (g : Cfg) (idom : Idom) (b p : Nat) :
    p ∈ processedPreds g idom b ↔
      (p < g.n ∧ b ∈ g.succs p) ∧ processedB idom p = true := by
  rw [processedPreds, List.mem_filter, mem_cfgPreds]

theorem processedB_iff (idom : Idom) (p : Nat) :
    processedB idom p = true ↔ p = 0 ∨ (idom p).isSome = true := by
  simp [processedB]

theorem pathTo_reach (g : Cfg) : ∀ b l, PathTo g b l → Reach g 0 b := by
  intro b l h
  induction h with
  | entry => exact Reach.refl 0
  | step _ hedge ih => exact Reach.tail ih hedge

theorem reach_pathTo (g : Cfg) : ∀ b, Reach g 0 b → ∃ l, PathTo g b l := by
  intro b h
  induction h with
  | refl => exact ⟨[0], PathTo.entry⟩
  | tail _ hedge ih =>
    obtain ⟨l, hl⟩ := ih
    exact ⟨_, PathTo.step hl hedge⟩

theorem pathTo_mem_self (g : Cfg) : ∀ b l, PathTo g b l → b ∈ l := by
  intro b l h
  cases h with
  | entry => exact List.mem_singleton.mpr rfl
  | step _ _ => exact List.mem_append_right _ (List.mem_singleton.mpr rfl)

theorem pathTo_mem_zero (g : Cfg) : ∀ b l, PathTo g b l → 0 ∈ l := by
  intro b l h
  induction h with
  | entry => exact List.mem_singleton.mpr rfl
  | step _ _ ih => exact List.mem_append_left _ ih

theorem dom_refl (g : Cfg) (b : Nat) : Dom g b b :=
  fun l hl => pathTo_mem_self g b l hl

theorem dom_zero (g : Cfg) (b : Nat) : Dom g 0 b :=
  fun l hl => pathTo_mem_zero g b l hl

theorem dom_zero_eq (g : Cfg) (d : Nat) (h : Dom g d 0) : d = 0 := by
  have := h [0] PathTo.entry
  exact List.mem_singleton.mp this

theorem dom_pred (g : Cfg) (x b p : Nat) (hedge : b ∈ g.succs p)
    (hdom : Dom g x b) (hxb : ¬ x = b) : Dom g x p := by
  intro l hl
  have := hdom (l ++ [b]) (PathTo.step hl hedge)
  rcases List.mem_append.mp this with h | h
  · exact h
  · exact absurd (List.mem_singleton.mp h) hxb

theorem pathTo_mem_sub (g : Cfg) : ∀ b l, PathTo g b l → ∀ x, x ∈ l →
    ∃ lx, PathTo g x lx ∧ lx.length ≤ l.length ∧
      (¬ x = b → lx.length < l.length) := by
  intro b l h
  induction h with
  | entry =>
    intro x hx
    rcases List.mem_singleton.mp hx with rfl
    exact ⟨[0], PathTo.entry, le_refl _, fun hx0 => absurd rfl hx0⟩
  | step hp hedge ih =>
    rename_i b' c' l'
    intro x hx
    rcases List.mem_append.mp hx with hx' | hx'
    · obtain ⟨lx, hlx, hle, _⟩ := ih x hx'
      refine ⟨lx, hlx, ?_, fun _ => ?_⟩
      · rw [List.length_append]
        omega
      · rw [List.length_append]
        simp only [List.length_singleton]
        omega
    · rcases List.mem_singleton.mp hx' with rfl
      exact ⟨l' ++ [x], PathTo.step hp hedge, le_refl _,
        fun hc => absurd rfl hc⟩

theorem dom_antisymm (g : Cfg) (d1 d2 : Nat) (h12 : Dom g d1 d2)
    (h21 : Dom g d2 d1) (hre : Reach g 0 d2) : d1 = d2 := by
  by_contra hne
  obtain ⟨l, hl⟩ := reach_pathTo g d2 hre
  have key : ∀ n, ∀ l2, PathTo g d2 l2 → l2.length ≤ n → False := by
    intro n
    induction n using Nat.strong_induction_on with
    | _ n ihn =>
      intro l2 hl2 hlen
      have hd1 : d1 ∈ l2 := h12 l2 hl2
      obtain ⟨l1, hl1, _, hstrict1⟩ := pathTo_mem_sub g d2 l2 hl2 d1 hd1
      have hlt1 : l1.length < l2.length := hstrict1 hne
      have hd2 : d2 ∈ l1 := h21 l1 hl1
      obtain ⟨l3, hl3, hle3, _⟩ := pathTo_mem_sub g d1 l1 hl1 d2 hd2
      have hlt : l3.length < n := by omega
      exact ihn l3.length hlt l3 hl3 (le_refl _)
  exact key l.length l hl (le_refl _)

theorem dom_reach (g : Cfg) (d b : Nat) (hdom : Dom g d b)
    (hre : Reach g 0 b) : Reach g 0 d := by
  obtain ⟨l, hl⟩ := reach_pathTo g b hre
  obtain ⟨ld, hld, _, _⟩ := pathTo_mem_sub g b l hl d (hdom l hl)
  exact pathTo_reach g d ld hld

theorem reach_lt (g : Cfg) (hn : 0 < g.n)
    (hsucc : ∀ a, a < g.n → ∀ c ∈ g.succs a, c < g.n) :
    ∀ x, Reach g 0 x → x < g.n := by
  intro x h
  induction h with
  | refl => exact hn
  | tail _ hedge ih =>
    exact hsucc _ ih _ hedge

theorem inChain_trans (idom : Idom) : ∀ a b c, InChain idom a b →
    InChain idom b c → InChain idom a c := by
  intro a b c h1 h2
  induction h1 with
  | refl => exact h2
  | step h _ ih => exact InChain.step h (ih h2)

theorem inChain_rpo (idom : Idom) (rho : Nat → Int)
    (hdec : ∀ b d, idom b = some d → rho d < rho b) :
    ∀ y x, InChain idom y x → x = y ∨ rho x < rho y := by
  intro y x h
  induction h with
  | refl => exact Or.inl rfl
  | step h _ ih =>
    have hd := hdec _ _ h
    rcases ih with rfl | hlt
    · exact Or.inr hd
    · exact Or.inr (by omega)

theorem inChain_total (idom : Idom) : ∀ y c c2, InChain idom y c →
    InChain idom y c2 → InChain idom c c2 ∨ InChain idom c2 c := by
  intro y c c2 h1
  induction h1 generalizing c2 with
  | refl =>
    intro h2
    exact Or.inl h2
  | step h hsub ih =>
    intro h2
    cases h2 with
    | refl => exact Or.inr (InChain.step h hsub)
    | step h2a h2b =>
      rw [h] at h2a
      rw [← Option.some_inj.mp h2a] at h2b
      exact ih c2 h2b

theorem inChain_zero (idom : Idom) (h0 : idom 0 = none) :
    ∀ c, InChain idom 0 c → c = 0 := by
  intro c h
  cases h with
  | refl => rfl
  | step h _ => rw [h0] at h; exact absurd h (Option.noConfusion)

theorem inChain_to_zero (idom : Idom) (h0 : idom 0 = none) (y z : Nat)
    (hy0 : InChain idom y 0) (hyz : InChain idom y z) : InChain idom z 0 := by
  rcases inChain_total idom y z 0 hyz hy0 with h | h
  · exact h
  · rw [inChain_zero idom h0 z h]
    exact InChain.refl 0

theorem inChain_isSome (idom : Idom) (d : Nat) (h : InChain idom d 0)
    (hd : ¬ d = 0) : (idom d).isSome = true := by
  cases h with
  | refl => exact absurd rfl hd
  | step h _ => rw [h]; rfl

/-- Partial correctness of the `Intersect` walk: when it returns a region,
that region lies on both input chains and every common point of the two
chains lies on its chain (it is the meet of the two chains). -/
theorem intersectFuel_spec (idom : Idom) (rho : Nat → Int)
    (hdec : ∀ b d, idom b = some d → rho d < rho b) :
    ∀ fuel i j z, intersectFuel idom rho fuel i j = some z →
      InChain idom i z ∧ InChain idom j z ∧
      ∀ x, InChain idom i x → InChain idom j x → InChain idom z x := by
  intro fuel
  induction fuel with
  | zero =>
    intro i j z h
    exact absurd h (by simp [intersectFuel])
  | succ fuel ih =>
    intro i j z h
    by_cases hij : i = j
    · rw [intersectFuel, if_pos hij] at h
      have hz : i = z := Option.some_inj.mp h
      rw [← hz, ← hij]
      exact ⟨InChain.refl i, InChain.refl i, fun x hx _ => hx⟩
    · rw [intersectFuel, if_neg hij] at h
      by_cases hji : rho j < rho i
      · rw [if_pos hji] at h
        match hi : idom i with
        | none =>
          rw [hi] at h
          exact absurd h (by simp)
        | some i2 =>
          rw [hi] at h
          obtain ⟨h1, h2, hmax⟩ := ih i2 j z h
          refine ⟨InChain.step hi h1, h2, ?_⟩
          intro x hx hjx
          have hxi : ¬ x = i := by
            intro he
            rw [he] at hjx
            rcases inChain_rpo idom rho hdec j i hjx with rfl | hlt
            · exact hij rfl
            · omega
          cases hx with
          | refl => exact absurd rfl hxi
          | step ha hb =>
            rw [hi] at ha
            rw [← Option.some_inj.mp ha] at hb
            exact hmax x hb hjx
      · rw [if_neg hji] at h
        by_cases hij2 : rho i < rho j
        · rw [if_pos hij2] at h
          match hj : idom j with
          | none =>
            rw [hj] at h
            exact absurd h (by simp)
          | some j2 =>
            rw [hj] at h
            obtain ⟨h1, h2, hmax⟩ := ih i j2 z h
            refine ⟨h1, InChain.step hj h2, ?_⟩
            intro x hix hx
            have hxj : ¬ x = j := by
              intro he
              rw [he] at hix
              rcases inChain_rpo idom rho hdec i j hix with rfl | hlt
              · exact hij rfl
              · omega
            cases hx with
            | refl => exact absurd rfl hxj
            | step ha hb =>
              rw [hj] at ha
              rw [← Option.some_inj.mp ha] at hb
              exact hmax x hix hb
        · rw [if_neg hij2] at h
          exact absurd h (by simp)

/-- Partial correctness of the fold of `Intersect` over the processed
predecessors: the result is the meet of all their chains. -/
theorem intersectAll_spec (idom : Idom) (rho : Nat → Int) (ifuel : Nat)
    (hdec : ∀ b d, idom b = some d → rho d < rho b) :
    ∀ ps acc z, intersectAll idom rho ifuel ps acc = some z →
      InChain idom acc z ∧ (∀ p ∈ ps, InChain idom p z) ∧
      ∀ x, InChain idom acc x → (∀ p ∈ ps, InChain idom p x) → InChain idom z x := by
  intro ps
  induction ps with
  | nil =>
    intro acc z h
    have hz : acc = z := Option.some_inj.mp h
    rw [← hz]
    exact ⟨InChain.refl acc, by simp, fun x hx _ => hx⟩
  | cons p ps ih =>
    intro acc z h
    rw [intersectAll] at h
    match h1 : intersectFuel idom rho ifuel p acc with
    | none =>
      rw [h1] at h
      exact absurd h (by simp)
    | some z1 =>
      rw [h1] at h
      obtain ⟨hpz1, haccz1, hmax1⟩ := intersectFuel_spec idom rho hdec ifuel p acc z1 h1
      obtain ⟨hz1z, hpsz, hmax2⟩ := ih z1 z h
      refine ⟨inChain_trans idom acc z1 z haccz1 hz1z, ?_, ?_⟩
      · intro q hq
        rcases List.mem_cons.mp hq with rfl | hq'
        · exact inChain_trans idom q z1 z hpz1 hz1z
        · exact hpsz q hq'
      · intro x hacc hall
        have hpx : InChain idom p x := hall p (List.mem_cons_self p ps)
        have hz1x : InChain idom z1 x := hmax1 x hpx hacc
        exact hmax2 x hz1x (fun q hq => hall q (List.mem_cons_of_mem p hq))

/-- Chains in the updated assignment decompose: either the chain avoided the
updated region and existed before, or it runs to the updated region and
continues along its new chain. -/
theorem inChainUpd_decompose (idom : Idom) (b z : Nat) :
    ∀ y x, InChain (idomUpdate idom b z) y x →
      InChain idom y x ∨
        (InChain idom y b ∧ InChain (idomUpdate idom b z) b x) := by
  intro y x h
  induction h with
  | refl => exact Or.inl (InChain.refl _)
  | step h hsub ih =>
    rename_i y' d c
    by_cases hyb : y' = b
    · refine Or.inr ⟨?_, ?_⟩
      · rw [hyb]
        exact InChain.refl b
      · have hstep : InChain (idomUpdate idom b z) y' c := InChain.step h hsub
        rw [hyb] at hstep
        exact hstep
    · have hold : idom y' = some d := by
        rw [← h]
        simp [idomUpdate, hyb]
      rcases ih with hx | ⟨hdb, hbx⟩
      · exact Or.inl (InChain.step hold hx)
      · exact Or.inr ⟨InChain.step hold hdb, hbx⟩

/-- Chains starting strictly below the updated region (in RPO) are untouched
by the update. -/
theorem inChainUpd_low (idom : Idom) (rho : Nat → Int) (b z : Nat)
    (hdec : ∀ c d, idom c = some d → rho d < rho c) (hzb : rho z < rho b) :
    ∀ y x, rho y < rho b →
      (InChain (idomUpdate idom b z) y x ↔ InChain idom y x) := by
  have hfwd : ∀ y x, InChain (idomUpdate idom b z) y x → rho y < rho b →
      InChain idom y x := by
    intro y x h
    induction h with
    | refl =>
      intro _
      exact InChain.refl _
    | step h hsub ih =>
      rename_i y' d c
      intro hy
      have hyb : ¬ y' = b := by
        intro he
        rw [he] at hy
        omega
      have hold : idom y' = some d := by
        rw [← h]
        simp [idomUpdate, hyb]
      have hd : rho d < rho y' := hdec y' d hold
      exact InChain.step hold (ih (by omega))
  have hbwd : ∀ y x, InChain idom y x → rho y < rho b →
      InChain (idomUpdate idom b z) y x := by
    intro y x h
    induction h with
    | refl =>
      intro _
      exact InChain.refl _
    | step h hsub ih =>
      rename_i y' d c
      intro hy
      have hyb : ¬ y' = b := by
        intro he
        rw [he] at hy
        omega
      have hnew : idomUpdate idom b z y' = some d := by
        simp [idomUpdate, hyb]
        exact h
      have hd : rho d < rho y' := hdec y' d h
      exact InChain.step hnew (ih (by omega))
  intro y x hy
  exact ⟨fun h => hfwd y x h hy, fun h => hbwd y x h hy⟩

/-- The updated region's new chain. -/
theorem inChainUpd_b (idom : Idom) (rho : Nat → Int) (b z : Nat)
    (hdec : ∀ c d, idom c = some d → rho d < rho c) (hzb : rho z < rho b) :
    ∀ x, InChain (idomUpdate idom b z) b x ↔ (x = b ∨ InChain idom z x) := by
  intro x
  constructor
  · intro h
    cases h with
    | refl => exact Or.inl rfl
    | step h hsub =>
      have hz : idomUpdate idom b z b = some z := by simp [idomUpdate]
      rw [hz] at h
      rw [← Option.some_inj.mp h] at hsub
      exact Or.inr ((inChainUpd_low idom rho b z hdec hzb z x hzb).mp hsub)
  · intro h
    rcases h with rfl | h
    · exact InChain.refl x
    · exact InChain.step (by simp [idomUpdate])
        ((inChainUpd_low idom rho b z hdec hzb z x hzb).mpr h)

/-- Rootedness of chains survives the update, as long as the new parent's
chain is itself rooted. -/
theorem inChainUpd_root (idom : Idom) (rho : Nat → Int) (b z : Nat)
    (hdec : ∀ c d, idom c = some d → rho d < rho c) (hzb : rho z < rho b)
    (hz0 : InChain idom z 0) :
    ∀ y, InChain idom y 0 → InChain (idomUpdate idom b z) y 0 := by
  suffices hgen : ∀ y x, InChain idom y x → x = 0 →
      InChain (idomUpdate idom b z) y 0 by
    intro y h
    exact hgen y 0 h rfl
  intro y x h
  induction h with
  | refl =>
    intro h0
    rw [h0]
    exact InChain.refl 0
  | step h hsub ih =>
    rename_i y' d c
    intro h0
    by_cases hyb : y' = b
    · rw [hyb]
      exact InChain.step (show idomUpdate idom b z b = some z by simp [idomUpdate])
        ((inChainUpd_low idom rho b z hdec hzb z 0 hzb).mpr hz0)
    · exact InChain.step (show idomUpdate idom b z y' = some d by
        simp [idomUpdate, hyb]; exact h) (ih h0)

/-- Old chains transfer to the updated assignment unless they pass strictly
beyond the updated region. -/
theorem inChain_toUpd (idom : Idom) (b z : Nat) :
    ∀ y x, InChain idom y x →
      InChain (idomUpdate idom b z) y x ∨
        (InChain idom y b ∧ InChain idom b x ∧ ¬ x = b) := by
  intro y x h
  induction h with
  | refl => exact Or.inl (InChain.refl _)
  | step h hsub ih =>
    rename_i y' d c
    by_cases hyb : y' = b
    · by_cases hxb : c = b
      · rw [hyb, hxb]
        exact Or.inl (InChain.refl b)
      · refine Or.inr ⟨?_, ?_, hxb⟩
        · rw [hyb]
          exact InChain.refl b
        · rw [← hyb]
          exact InChain.step h hsub
    · have hnew : idomUpdate idom b z y' = some d := by
        simp [idomUpdate, hyb]
        exact h
      rcases ih with hx | ⟨hdb, hbx, hxb⟩
      · exact Or.inl (InChain.step hnew hx)
      · exact Or.inr ⟨InChain.step h hdb, hbx, hxb⟩

/-- The key preservation step of the dominator fixpoint: setting a reachable
non-entry region's `idom_` to the meet of its processed predecessors' chains
preserves the invariant, provided some processed predecessor has a smaller
RPO number (the DFS tree parent always qualifies). -/
theorem idomInv_update (g : Cfg) (rho : Nat → Int) (idom : Idom) (b z : Nat)
    (hinv : IdomInv g rho idom)
    (hb0 : ¬ b = 0)
    (hreachb : Reach g 0 b)
    (hmem : ∀ p ∈ processedPreds g idom b, InChain idom p z)
    (hmax : ∀ x, (∀ p ∈ processedPreds g idom b, InChain idom p x) →
      InChain idom z x)
    (hp0 : ∃ p0, p0 ∈ processedPreds g idom b ∧ rho p0 < rho b) :
    IdomInv g rho (idomUpdate idom b z) := by
  obtain ⟨h0, hdec, hre, hrt, hD1, hDD⟩ := hinv
  obtain ⟨p0, hp0m, hp0r⟩ := hp0
  have hzrho : rho z < rho b := by
    rcases inChain_rpo idom rho hdec p0 z (hmem p0 hp0m) with rfl | hlt
    · exact hp0r
    · omega
  have hzb : ¬ z = b := by
    intro he
    rw [he] at hzrho
    omega
  have hpredfact : ∀ p ∈ processedPreds g idom b,
      b ∈ g.succs p ∧ (p = 0 ∨ (idom p).isSome = true) := by
    intro p hp
    obtain ⟨⟨_, hedge⟩, hproc⟩ := (mem_processedPreds g idom b p).mp hp
    exact ⟨hedge, (processedB_iff idom p).mp hproc⟩
  have hz0 : InChain idom z 0 := by
    have hc : InChain idom p0 z := hmem p0 hp0m
    rcases (hpredfact p0 hp0m).2 with hq0 | hqs
    · rw [hq0] at hc
      rw [inChain_zero idom h0 z hc]
      exact InChain.refl 0
    · obtain ⟨d0, hd0⟩ := Option.isSome_iff_exists.mp hqs
      have hp00 : InChain idom p0 0 := InChain.step hd0 (hrt p0 d0 hd0)
      exact inChain_to_zero idom h0 p0 z hp00 hc
  have hz0u : InChain (idomUpdate idom b z) z 0 :=
    (inChainUpd_low idom rho b z hdec hzrho z 0 hzrho).mpr hz0
  have hDomPb : ∀ x, Dom g x b → ¬ x = b →
      ∀ p ∈ processedPreds g idom b, InChain idom p x := by
    intro x hx hxb p hpm
    obtain ⟨hedge, hproc⟩ := hpredfact p hpm
    have hDxp : Dom g x p := dom_pred g x b p hedge hx hxb
    rcases hproc with hq0 | hqs
    · rw [hq0] at hDxp ⊢
      rw [dom_zero_eq g x hDxp]
      exact InChain.refl 0
    · exact hD1 p x hqs hDxp
  have hcore : ∀ x, Dom g x b → InChain (idomUpdate idom b z) b x := by
    intro x hx
    by_cases hxb : x = b
    · rw [hxb]
      exact InChain.refl b
    · exact (inChainUpd_b idom rho b z hdec hzrho x).mpr
        (Or.inr (hmax x (hDomPb x hx hxb)))
  have hINV1 : ∀ y x, (idomUpdate idom b z y).isSome → Dom g x y →
      InChain (idomUpdate idom b z) y x := by
    intro y x hy hDxy
    by_cases hyb : y = b
    · rw [hyb] at hDxy ⊢
      exact hcore x hDxy
    · have hysome : (idom y).isSome = true := by
        simp only [idomUpdate, if_neg hyb] at hy
        exact hy
      have hold : InChain idom y x := hD1 y x hysome hDxy
      rcases inChain_toUpd idom b z y x hold with hnew | ⟨hyb2, hbx, hxb⟩
      · exact hnew
      · have hDxb : Dom g x b := hDD y x b hysome hDxy hyb2 hbx
        have hbx2 : InChain (idomUpdate idom b z) b x := hcore x hDxb
        have hyb3 : InChain (idomUpdate idom b z) y b := by
          rcases inChain_toUpd idom b z y b hyb2 with h | ⟨_, _, hbb⟩
          · exact h
          · exact absurd rfl hbb
        exact inChain_trans (idomUpdate idom b z) y b x hyb3 hbx2
  refine ⟨?_, ?_, ?_, ?_, hINV1, ?_⟩
  · have h0b : ¬ (0 : Nat) = b := fun he => hb0 he.symm
    simp only [idomUpdate, if_neg h0b]
    exact h0
  · intro c d hcd
    by_cases hcb : c = b
    · rw [hcb] at hcd ⊢
      simp only [idomUpdate, if_pos rfl] at hcd
      rw [← Option.some_inj.mp hcd]
      exact hzrho
    · simp only [idomUpdate, if_neg hcb] at hcd
      exact hdec c d hcd
  · intro c hc
    by_cases hcb : c = b
    · rw [hcb]
      exact ⟨hreachb, hb0⟩
    · simp only [idomUpdate, if_neg hcb] at hc
      exact hre c hc
  · intro c d hcd
    by_cases hcb : c = b
    · rw [hcb] at hcd
      simp only [idomUpdate, if_pos rfl] at hcd
      rw [← Option.some_inj.mp hcd]
      exact hz0u
    · simp only [idomUpdate, if_neg hcb] at hcd
      exact inChainUpd_root idom rho b z hdec hzrho hz0 d (hrt c d hcd)
  · intro y x c hy hDxy hyc hcx
    rcases inChainUpd_decompose idom b z y c hyc with hycO | ⟨hybO, hbc⟩
    · rcases inChainUpd_decompose idom b z c x hcx with hcxO | ⟨hcbO, hbx⟩
      · -- both chains lived in the old assignment
        by_cases hyb : y = b
        · rw [hyb] at hDxy hycO
          by_cases hcb : c = b
          · rw [hcb]
            exact hDxy
          · have hbsome : (idom b).isSome = true := by
              cases hycO with
              | refl => exact absurd rfl hcb
              | step h _ => rw [h]; rfl
            exact hDD b x c hbsome hDxy hycO hcxO
        · have hysome : (idom y).isSome = true := by
            simp only [idomUpdate, if_neg hyb] at hy
            exact hy
          exact hDD y x c hysome hDxy hycO hcxO
      · -- the second chain runs through the updated region
        rcases (inChainUpd_b idom rho b z hdec hzrho x).mp hbx with hxb | hzx
        · -- the use is the updated region itself
          by_cases hcb : c = b
          · rw [hxb, hcb]
            exact dom_refl g b
          · by_cases hyb : y = b
            · rw [hyb] at hycO
              rcases inChain_rpo idom rho hdec b c hycO with rfl | hlt1
              · exact absurd rfl hcb
              · rcases inChain_rpo idom rho hdec c b hcbO with hcb2 | hlt2
                · exact absurd hcb2.symm hcb
                · exfalso
                  omega
            · have hysome : (idom y).isSome = true := by
                simp only [idomUpdate, if_neg hyb] at hy
                exact hy
              rw [hxb] at hDxy ⊢
              exact hDD y b c hysome hDxy hycO hcbO
        · -- the use lies on the new upper chain
          have hxz : rho x ≤ rho z := by
            rcases inChain_rpo idom rho hdec z x hzx with rfl | hlt
            · exact le_refl _
            · omega
          rcases inChain_rpo idom rho hdec c b hcbO with hbc2 | hbc2
          · -- c is the updated region
            by_cases hyb : y = b
            · rw [hyb] at hDxy
              rw [← hbc2]
              exact hDxy
            · have hysome : (idom y).isSome = true := by
                simp only [idomUpdate, if_neg hyb] at hy
                exact hy
              have hyx : InChain idom y x := hD1 y x hysome hDxy
              rw [← hbc2] at hycO ⊢
              rcases inChain_total idom y b x hycO hyx with hbx2 | hxb2
              · exact hDD y x b hysome hDxy hycO hbx2
              · rcases inChain_rpo idom rho hdec x b hxb2 with hbx3 | hlt
                · rw [← hbx3]
                  exact dom_refl g b
                · exfalso
                  omega
          · -- the updated region lies strictly above c on the old chain
            by_cases hyb : y = b
            · rw [hyb] at hycO
              rcases inChain_rpo idom rho hdec b c hycO with rfl | hlt1
              · exfalso
                omega
              · exfalso
                omega
            · have hysome : (idom y).isSome = true := by
                simp only [idomUpdate, if_neg hyb] at hy
                exact hy
              have hyx : InChain idom y x := hD1 y x hysome hDxy
              rcases inChain_total idom y c x hycO hyx with hcx2 | hxc2
              · exact hDD y x c hysome hDxy hycO hcx2
              · rcases inChain_rpo idom rho hdec x c hxc2 with hcx3 | hlt
                · rw [← hcx3]
                  exact dom_refl g c
                · exfalso
                  omega
    · rcases (inChainUpd_b idom rho b z hdec hzrho c).mp hbc with hcb | hzc
      · -- the middle region is the updated region itself
        rw [hcb] at hcx ⊢
        rcases (inChainUpd_b idom rho b z hdec hzrho x).mp hcx with hxb | hzx
        · rw [hxb]
          exact dom_refl g b
        · have hxz : rho x ≤ rho z := by
            rcases inChain_rpo idom rho hdec z x hzx with rfl | hlt
            · exact le_refl _
            · omega
          by_cases hyb : y = b
          · rw [hyb] at hDxy
            exact hDxy
          · have hysome : (idom y).isSome = true := by
              simp only [idomUpdate, if_neg hyb] at hy
              exact hy
            have hyx : InChain idom y x := hD1 y x hysome hDxy
            rcases inChain_total idom y b x hybO hyx with hbx2 | hxb2
            · exact hDD y x b hysome hDxy hybO hbx2
            · rcases inChain_rpo idom rho hdec x b hxb2 with hbx3 | hlt
              · rw [← hbx3]
                exact dom_refl g b
              · exfalso
                omega
      · -- the middle region lies on the new upper chain
        have hcz : rho c ≤ rho z := by
          rcases inChain_rpo idom rho hdec z c hzc with rfl | hlt
          · exact le_refl _
          · omega
        have hcxO : InChain idom c x :=
          (inChainUpd_low idom rho b z hdec hzrho c x (by omega)).mp hcx
        have hDxb : Dom g x b := by
          by_cases hyb : y = b
          · rw [hyb] at hDxy
            exact hDxy
          · have hysome : (idom y).isSome = true := by
              simp only [idomUpdate, if_neg hyb] at hy
              exact hy
            have hyx : InChain idom y x := hD1 y x hysome hDxy
            rcases inChain_total idom y b x hybO hyx with hbx2 | hxb2
            · exact hDD y x b hysome hDxy hybO hbx2
            · rcases inChain_rpo idom rho hdec x b hxb2 with hbx3 | hlt
              · rw [← hbx3]
                exact dom_refl g b
              · exfalso
                rcases inChain_rpo idom rho hdec c x hcxO with rfl | hlt2
                · omega
                · omega
        by_cases hxb : x = b
        · exfalso
          rcases inChain_rpo idom rho hdec c x hcxO with hcx3 | hlt
          · rw [← hcx3, hxb] at hcz
            omega
          · rw [hxb] at hlt
            omega
        · have hp0z : InChain idom p0 z := hmem p0 hp0m
          have hp0c : InChain idom p0 c := inChain_trans idom p0 z c hp0z hzc
          obtain ⟨hedge0, hproc0⟩ := hpredfact p0 hp0m
          have hDxp0 : Dom g x p0 := dom_pred g x b p0 hedge0 hDxb hxb
          rcases hproc0 with hq0 | hqs
          · rw [hq0] at hp0c hDxp0
            rw [dom_zero_eq g x hDxp0, inChain_zero idom h0 c hp0c]
            exact dom_zero g 0
          · exact hDD p0 x c hqs hDxp0 hp0c hcxO

theorem mem_insertByRpo (rho : Nat → Int) (b x : Nat) :
    ∀ l, x ∈ insertByRpo rho b l ↔ x = b ∨ x ∈ l := by
  intro l
  induction l with
  | nil => simp [insertByRpo]
  | cons c cs ih =>
    rw [insertByRpo]
    by_cases h : rho b ≤ rho c
    · rw [if_pos h]
      simp [List.mem_cons]
    · rw [if_neg h]
      simp only [List.mem_cons, ih]
      tauto

theorem pairwise_insertByRpo (rho : Nat → Int) (b : Nat) :
    ∀ l, List.Pairwise (fun a c => rho a ≤ rho c) l →
      List.Pairwise (fun a c => rho a ≤ rho c) (insertByRpo rho b l) := by
  intro l
  induction l with
  | nil =>
    intro _
    simp [insertByRpo]
  | cons c cs ih =>
    intro hp
    rw [List.pairwise_cons] at hp
    obtain ⟨hc, hcs⟩ := hp
    rw [insertByRpo]
    by_cases h : rho b ≤ rho c
    · rw [if_pos h, List.pairwise_cons]
      constructor
      · intro y hy
        rcases List.mem_cons.mp hy with rfl | hy2
        · exact h
        · exact le_trans h (hc y hy2)
      · rw [List.pairwise_cons]
        exact ⟨hc, hcs⟩
    · rw [if_neg h, List.pairwise_cons]
      constructor
      · intro y hy
        rcases (mem_insertByRpo rho b y cs).mp hy with rfl | hy2
        · omega
        · exact hc y hy2
      · exact ih hcs

theorem mem_sortByRpo (rho : Nat → Int) (x : Nat) :
    ∀ l, x ∈ sortByRpo rho l ↔ x ∈ l := by
  intro l
  induction l with
  | nil => simp [sortByRpo]
  | cons c cs ih =>
    rw [sortByRpo] at ih ⊢
    rw [List.foldr_cons, mem_insertByRpo, ih]
    simp [List.mem_cons]

theorem pairwise_sortByRpo (rho : Nat → Int) :
    ∀ l, List.Pairwise (fun a c => rho a ≤ rho c) (sortByRpo rho l) := by
  intro l
  induction l with
  | nil => simp [sortByRpo]
  | cons c cs ih =>
    rw [sortByRpo] at ih ⊢
    rw [List.foldr_cons]
    exact pairwise_insertByRpo rho c _ ih

theorem idomPass_nil (g : Cfg) (rho : Nat → Int) (ifuel : Nat) (idom : Idom)
    (ch : Bool) : idomPass g rho ifuel [] idom ch = some (idom, ch) := rfl

theorem idomPass_cons_zero (g : Cfg) (rho : Nat → Int) (ifuel : Nat) (b : Nat)
    (bs : List Nat) (idom : Idom) (ch : Bool) (h : b = 0) :
    idomPass g rho ifuel (b :: bs) idom ch = idomPass g rho ifuel bs idom ch := by
  simp [idomPass, h]

theorem idomPass_cons_nopred (g : Cfg) (rho : Nat → Int) (ifuel : Nat) (b : Nat)
    (bs : List Nat) (idom : Idom) (ch : Bool) (hb : ¬ b = 0)
    (hpp : processedPreds g idom b = []) :
    idomPass g rho ifuel (b :: bs) idom ch = idomPass g rho ifuel bs idom ch := by
  simp [idomPass, hb, hpp]

theorem idomPass_cons_fail (g : Cfg) (rho : Nat → Int) (ifuel : Nat) (b : Nat)
    (bs : List Nat) (idom : Idom) (ch : Bool) (p : Nat) (ps : List Nat)
    (hb : ¬ b = 0) (hpp : processedPreds g idom b = p :: ps)
    (hz : intersectAll idom rho ifuel ps p = none) :
    idomPass g rho ifuel (b :: bs) idom ch = none := by
  simp [idomPass, hb, hpp, hz]

theorem idomPass_cons_upd (g : Cfg) (rho : Nat → Int) (ifuel : Nat) (b : Nat)
    (bs : List Nat) (idom : Idom) (ch : Bool) (p z : Nat) (ps : List Nat)
    (hb : ¬ b = 0) (hpp : processedPreds g idom b = p :: ps)
    (hz : intersectAll idom rho ifuel ps p = some z) :
    idomPass g rho ifuel (b :: bs) idom ch =
      idomPass g rho ifuel bs (idomUpdate idom b z)
        (ch || decide (¬ idom b = some z)) := by
  simp [idomPass, hb, hpp, hz]

/-- One pass of the dominator fixpoint, over a worklist sorted by ascending
RPO, preserves the invariant; afterwards every reachable non-entry region
whose turn has come (that is, all of them, when the worklist held every
region) is processed. -/
theorem idomPass_spec (g : Cfg) (rho : Nat → Int) (ifuel : Nat)
    (hn : 0 < g.n) (hsucc : ∀ a, a < g.n → ∀ c ∈ g.succs a, c < g.n)
    (hpar : ∀ x, Reach g 0 x → ¬ x = 0 →
      ∃ p, x ∈ g.succs p ∧ Reach g 0 p ∧ rho p < rho x) :
    ∀ bs idom ch out,
      IdomInv g rho idom →
      List.Pairwise (fun a c => rho a ≤ rho c) bs →
      (∀ x, Reach g 0 x → ¬ x = 0 → ¬ x ∈ bs → processedB idom x = true) →
      idomPass g rho ifuel bs idom ch = some out →
      IdomInv g rho out.1 ∧
        (∀ x, Reach g 0 x → ¬ x = 0 → processedB out.1 x = true) := by
  intro bs
  induction bs with
  | nil =>
    intro idom ch out hinv hsort hproc hrun
    rw [idomPass_nil] at hrun
    rw [← Option.some_inj.mp hrun]
    exact ⟨hinv, fun x hx hx0 => hproc x hx hx0 (List.not_mem_nil x)⟩
  | cons b bs ih =>
    intro idom ch out hinv hsort hproc hrun
    rw [List.pairwise_cons] at hsort
    obtain ⟨hble, hsort2⟩ := hsort
    by_cases hb0 : b = 0
    · rw [idomPass_cons_zero g rho ifuel b bs idom ch hb0] at hrun
      refine ih idom ch out hinv hsort2 ?_ hrun
      intro x hx hx0 hxbs
      refine hproc x hx hx0 ?_
      intro hmem
      rcases List.mem_cons.mp hmem with rfl | h
      · exact hx0 hb0
      · exact hxbs h
    · have hbkey : Reach g 0 b →
          ∃ p0, p0 ∈ processedPreds g idom b ∧ rho p0 < rho b := by
        intro hrb
        obtain ⟨p, hpe, hpr, hplt⟩ := hpar b hrb hb0
        refine ⟨p, ?_, hplt⟩
        rw [mem_processedPreds]
        refine ⟨⟨reach_lt g hn hsucc p hpr, hpe⟩, ?_⟩
        by_cases hp00 : p = 0
        · rw [processedB_iff]
          exact Or.inl hp00
        · refine hproc p hpr hp00 ?_
          intro hmem
          rcases List.mem_cons.mp hmem with rfl | h
          · omega
          · have := hble p h
            omega
      match hpp : processedPreds g idom b with
      | [] =>
        rw [idomPass_cons_nopred g rho ifuel b bs idom ch hb0 hpp] at hrun
        refine ih idom ch out hinv hsort2 ?_ hrun
        intro x hx hx0 hxbs
        by_cases hxb : x = b
        · exfalso
          obtain ⟨p0, hp0m, _⟩ := hbkey (hxb ▸ hx)
          rw [hpp] at hp0m
          exact absurd hp0m (List.not_mem_nil p0)
        · refine hproc x hx hx0 ?_
          intro hmem
          rcases List.mem_cons.mp hmem with h | h
          · exact hxb h
          · exact hxbs h
      | p :: ps =>
        match hz : intersectAll idom rho ifuel ps p with
        | none =>
          rw [idomPass_cons_fail g rho ifuel b bs idom ch p ps hb0 hpp hz] at hrun
          exact absurd hrun (by simp)
        | some z =>
          rw [idomPass_cons_upd g rho ifuel b bs idom ch p z ps hb0 hpp hz] at hrun
          have hpm : p ∈ processedPreds g idom b := by
            rw [hpp]
            exact List.mem_cons_self p ps
          have hreachb : Reach g 0 b := by
            obtain ⟨⟨hpn, hedge⟩, hprocp⟩ := (mem_processedPreds g idom b p).mp hpm
            rcases (processedB_iff idom p).mp hprocp with hq0 | hqs
            · rw [hq0] at hedge
              exact Reach.tail (Reach.refl 0) hedge
            · exact Reach.tail (hinv.2.2.1 p hqs).1 hedge
          obtain ⟨hacc, hpsmem, hmax0⟩ :=
            intersectAll_spec idom rho ifuel hinv.2.1 ps p z hz
          have hmem : ∀ q ∈ processedPreds g idom b, InChain idom q z := by
            intro q hq
            rw [hpp] at hq
            rcases List.mem_cons.mp hq with rfl | hq2
            · exact hacc
            · exact hpsmem q hq2
          have hmax : ∀ x, (∀ q ∈ processedPreds g idom b, InChain idom q x) →
              InChain idom z x := by
            intro x hall
            refine hmax0 x (hall p hpm) ?_
            intro q hq
            refine hall q ?_
            rw [hpp]
            exact List.mem_cons_of_mem p hq
          have hinv2 := idomInv_update g rho idom b z hinv hb0 hreachb hmem hmax
            (hbkey hreachb)
          refine ih (idomUpdate idom b z) _ out hinv2 hsort2 ?_ hrun
          intro x hx hx0 hxbs
          by_cases hxb : x = b
          · rw [processedB_iff]
            refine Or.inr ?_
            rw [hxb]
            simp [idomUpdate]
          · have hold := hproc x hx hx0 (by
              intro hmem2
              rcases List.mem_cons.mp hmem2 with h | h
              · exact hxb h
              · exact hxbs h)
            rw [processedB_iff] at hold ⊢
            rcases hold with h | h
            · exact Or.inl h
            · refine Or.inr ?_
              simp only [idomUpdate, if_neg hxb]
              exact h

/-- A pass that reports no change left the assignment untouched and every
updated region's `idom_` already equals the meet of its processed
predecessors' chains. -/
theorem idomPass_nochange (g : Cfg) (rho : Nat → Int) (ifuel : Nat) :
    ∀ bs idom ch idom2,
      idomPass g rho ifuel bs idom ch = some (idom2, false) →
      ch = false ∧ idom2 = idom ∧
        ∀ b ∈ bs, ¬ b = 0 → ∀ p ps, processedPreds g idom b = p :: ps →
          ∃ z, intersectAll idom rho ifuel ps p = some z ∧ idom b = some z := by
  intro bs
  induction bs with
  | nil =>
    intro idom ch idom2 h
    rw [idomPass_nil] at h
    have h2 := Option.some_inj.mp h
    have ha : idom = idom2 := congrArg Prod.fst h2
    have hb : ch = false := congrArg Prod.snd h2
    refine ⟨hb, ha.symm, ?_⟩
    intro b hb2
    exact absurd hb2 (List.not_mem_nil b)
  | cons b bs ih =>
    intro idom ch idom2 h
    by_cases hb0 : b = 0
    · rw [idomPass_cons_zero g rho ifuel b bs idom ch hb0] at h
      obtain ⟨h1, h2, h3⟩ := ih idom ch idom2 h
      refine ⟨h1, h2, ?_⟩
      intro c hc hc0 p ps hpp
      rcases List.mem_cons.mp hc with rfl | hc2
      · exact absurd hb0 hc0
      · exact h3 c hc2 hc0 p ps hpp
    · match hpp : processedPreds g idom b with
      | [] =>
        rw [idomPass_cons_nopred g rho ifuel b bs idom ch hb0 hpp] at h
        obtain ⟨h1, h2, h3⟩ := ih idom ch idom2 h
        refine ⟨h1, h2, ?_⟩
        intro c hc hc0 p ps hpp2
        rcases List.mem_cons.mp hc with rfl | hc2
        · rw [hpp] at hpp2
          exact List.noConfusion hpp2
        · exact h3 c hc2 hc0 p ps hpp2
      | p :: ps =>
        match hz : intersectAll idom rho ifuel ps p with
        | none =>
          rw [idomPass_cons_fail g rho ifuel b bs idom ch p ps hb0 hpp hz] at h
          exact absurd h (by simp)
        | some z =>
          rw [idomPass_cons_upd g rho ifuel b bs idom ch p z ps hb0 hpp hz] at h
          obtain ⟨h1, h2, h3⟩ := ih (idomUpdate idom b z) _ idom2 h
          have hchz : ch = false ∧ idom b = some z := by
            rcases Bool.or_eq_false_iff.mp h1 with ⟨hc1, hc2⟩
            exact ⟨hc1, not_not.mp (of_decide_eq_false hc2)⟩
          obtain ⟨hc1, hbz⟩ := hchz
          have hupd : idomUpdate idom b z = idom := by
            funext x
            by_cases hxb : x = b
            · rw [hxb]
              simp only [idomUpdate, if_pos rfl]
              exact hbz.symm
            · simp [idomUpdate, hxb]
          rw [hupd] at h2 h3
          refine ⟨hc1, h2, ?_⟩
          intro c hc hc0 p2 ps2 hpp2
          rcases List.mem_cons.mp hc with rfl | hc2
          · rw [hpp] at hpp2
            rw [List.cons.injEq] at hpp2
            obtain ⟨hp2, hps2⟩ := hpp2
            rw [← hp2, ← hps2]
            exact ⟨z, hz, hbz⟩
          · exact h3 c hc2 hc0 p2 ps2 hpp2

/-- Iterating passes from an invariant state until one reports no change
yields a state that satisfies the invariant, has processed every reachable
non-entry region, and is a fixpoint of the pass. -/
theorem idomIter_inv (g : Cfg) (rho : Nat → Int) (ifuel : Nat)
    (order : List Nat)
    (hn : 0 < g.n) (hsucc : ∀ a, a < g.n → ∀ c ∈ g.succs a, c < g.n)
    (hpar : ∀ x, Reach g 0 x → ¬ x = 0 →
      ∃ p, x ∈ g.succs p ∧ Reach g 0 p ∧ rho p < rho x)
    (hsort : List.Pairwise (fun a c => rho a ≤ rho c) order)
    (hall : ∀ x, x < g.n → x ∈ order) :
    ∀ pfuel idom idomF,
      IdomInv g rho idom →
      idomIter g rho ifuel order pfuel idom = some idomF →
      IdomInv g rho idomF ∧
        (∀ x, Reach g 0 x → ¬ x = 0 → processedB idomF x = true) ∧
        idomPass g rho ifuel order idomF false = some (idomF, false) := by
  intro pfuel
  induction pfuel with
  | zero =>
    intro idom idomF hinv hrun
    exact absurd hrun (by simp [idomIter])
  | succ pfuel ih =>
    intro idom idomF hinv hrun
    rw [idomIter] at hrun
    match hpass : idomPass g rho ifuel order idom false with
    | none =>
      rw [hpass] at hrun
      exact absurd hrun (by simp)
    | some (idom2, ch) =>
      rw [hpass] at hrun
      have hpre : ∀ x, Reach g 0 x → ¬ x = 0 → ¬ x ∈ order →
          processedB idom x = true := by
        intro x hx hx0 hxo
        exact absurd (hall x (reach_lt g hn hsucc x hx)) hxo
      obtain ⟨hinv2, hproc2⟩ := idomPass_spec g rho ifuel hn hsucc hpar order idom
        false (idom2, ch) hinv hsort hpre hpass
      by_cases hch : ch = true
      · rw [hch] at hrun
        simp only [if_true] at hrun
        exact ih idom2 idomF hinv2 hrun
      · have hchf : ch = false := by
          cases ch
          · rfl
          · exact absurd rfl hch
        rw [hchf] at hrun hpass
        simp only [Bool.false_eq_true, if_false] at hrun
        have hF : idom2 = idomF := Option.some_inj.mp hrun
        rw [hF] at hinv2 hproc2 hpass
        obtain ⟨_, heq, _⟩ := idomPass_nochange g rho ifuel order idom false idomF hpass
        rw [← heq] at hpass
        exact ⟨hinv2, hproc2, hpass⟩

/-- At a fixpoint, every element of a region's dominator chain lies on every
path from the entry to that region — the chains under-approximate dominance,
by induction along the path. -/
theorem stable_chain_dom (g : Cfg) (idom : Idom)
    (h0 : idom 0 = none)
    (hlt : ∀ x, Reach g 0 x → x < g.n)
    (hproc : ∀ p, Reach g 0 p → processedB idom p = true)
    (hstab : ∀ b, Reach g 0 b → ¬ b = 0 →
      ∃ z, idom b = some z ∧ ∀ p ∈ processedPreds g idom b, InChain idom p z) :
    ∀ b l, PathTo g b l → ∀ x, InChain idom b x → x ∈ l := by
  intro b l h
  induction h with
  | entry =>
    intro x hx
    rw [inChain_zero idom h0 x hx]
    exact List.mem_singleton.mpr rfl
  | step hp hedge ihp =>
    rename_i p c l2
    intro x hx
    cases hx with
    | refl => exact List.mem_append_right _ (List.mem_singleton.mpr rfl)
    | step hcd hsub =>
      rename_i d
      have hc0 : ¬ c = 0 := by
        intro he
        rw [he, h0] at hcd
        exact Option.noConfusion hcd
      have hreachc : Reach g 0 c := pathTo_reach g c _ (PathTo.step hp hedge)
      obtain ⟨z, hz, hzmem⟩ := hstab c hreachc hc0
      have hdz : d = z := by
        rw [hcd] at hz
        exact Option.some_inj.mp hz
      have hreachp : Reach g 0 p := pathTo_reach g p l2 hp
      have hpm : p ∈ processedPreds g idom c := by
        rw [mem_processedPreds]
        exact ⟨⟨hlt p hreachp, hedge⟩, hproc p hreachp⟩
      have hpx : InChain idom p x :=
        inChain_trans idom p z x (hzmem p hpm) (hdz ▸ hsub)
      exact List.mem_append_left _ (ihp x hpx)

/-- At an invariant fixpoint the `idom_` links are exactly the immediate
dominators: each reachable non-entry region's link dominates it, is distinct
from it, is dominated by every other strict dominator (closest), and the
links lead to the entry. -/
theorem idom_stable_correct (g : Cfg) (rho : Nat → Int) (idom : Idom)
    (hinv : IdomInv g rho idom)
    (hlt : ∀ x, Reach g 0 x → x < g.n)
    (hproc : ∀ p, Reach g 0 p → processedB idom p = true)
    (hstab : ∀ b, Reach g 0 b → ¬ b = 0 →
      ∃ z, idom b = some z ∧ ∀ p ∈ processedPreds g idom b, InChain idom p z) :
    ∀ b, Reach g 0 b → ¬ b = 0 →
      ∃ z, idom b = some z ∧ Dom g z b ∧ ¬ z = b ∧
        (∀ x, Dom g x b → ¬ x = b → Dom g x z) ∧ InChain idom b 0 := by
  obtain ⟨h0, hdec, hre, hrt, hD1, hDD⟩ := hinv
  intro b hreachb hb0
  obtain ⟨z, hz, _⟩ := hstab b hreachb hb0
  have hchain := stable_chain_dom g idom h0 hlt hproc hstab
  have hbz : InChain idom b z := InChain.step hz (InChain.refl z)
  refine ⟨z, hz, ?_, ?_, ?_, ?_⟩
  · intro l hl
    exact hchain b l hl z hbz
  · intro he
    have := hdec b z hz
    rw [he] at this
    omega
  · intro x hx hxb
    have hbx : InChain idom b x := hD1 b x (by rw [hz]; rfl) hx
    have hzx : InChain idom z x := by
      cases hbx with
      | refl => exact absurd rfl hxb
      | step h hsub =>
        rw [hz] at h
        rw [← Option.some_inj.mp h] at hsub
        exact hsub
    intro l hl
    exact hchain z l hl x hzx
  · exact InChain.step hz (hrt b z hz)

/-- C3: after `ComputeIDominators` runs to convergence on a well-formed CFG,
for every reachable region `R` other than the entry, `R.GetIDominator()` is
`R`'s immediate dominator in the standard sense: every path from the entry to
`R` passes through it, and it is the unique closest such region (every other
strict dominator of `R` dominates it, and any region with the same two
properties equals it); the immediate-dominator links lead from every such
region to the entry, forming a tree rooted at the entry; the entry region has
no dominator; and regions unreachable from the entry keep a `NULL` link. -/
theorem computeIDominators_correct (g : Cfg) (pfuel : Nat) (idomF : Idom)
    (hn : 0 < g.n)
    (hsucc : ∀ a, a < g.n → ∀ c ∈ g.succs a, c < g.n)
    (hrun : ComputeIDominators g pfuel = some idomF) :
    idomF 0 = none ∧
    (∀ x, ¬ Reach g 0 x → idomF x = none) ∧
    (∀ b, Reach g 0 b → ¬ b = 0 →
      ∃ z, idomF b = some z ∧
        Dom g z b ∧ ¬ z = b ∧
        (∀ x, Dom g x b → ¬ x = b → Dom g x z) ∧
        (∀ w, Dom g w b → ¬ w = b → (∀ x, Dom g x b → ¬ x = b → Dom g x w) →
          w = z) ∧
        InChain idomF b 0) := by
  have hpar := (computeRPO_facts g hn hsucc).2.2
  have hsort := pairwise_sortByRpo (ComputeRPO g) (List.range g.n)
  have hall : ∀ x, x < g.n → x ∈ sortByRpo (ComputeRPO g) (List.range g.n) := by
    intro x hx
    rw [mem_sortByRpo]
    exact List.mem_range.mpr hx
  have hinit : IdomInv g (ComputeRPO g) (fun _ => none) := by
    refine ⟨rfl, ?_, ?_, ?_, ?_, ?_⟩
    · intro b d h
      exact Option.noConfusion h
    · intro b h
      exact absurd h (by simp)
    · intro b d h
      exact Option.noConfusion h
    · intro y x h
      exact absurd h (by simp)
    · intro y x c h
      exact absurd h (by simp)
  rw [ComputeIDominators] at hrun
  obtain ⟨hinvF, hprocF, hfix⟩ := idomIter_inv g (ComputeRPO g) (2 * g.n + 2)
    (sortByRpo (ComputeRPO g) (List.range g.n)) hn hsucc hpar hsort hall pfuel
    (fun _ => none) idomF hinit hrun
  obtain ⟨_, _, heqs⟩ := idomPass_nochange g (ComputeRPO g) (2 * g.n + 2)
    (sortByRpo (ComputeRPO g) (List.range g.n)) idomF false idomF hfix
  have hlt := reach_lt g hn hsucc
  have hprocAll : ∀ p, Reach g 0 p → processedB idomF p = true := by
    intro p hp
    by_cases hp0 : p = 0
    · rw [processedB_iff]
      exact Or.inl hp0
    · exact hprocF p hp hp0
  have hstab : ∀ b, Reach g 0 b → ¬ b = 0 →
      ∃ z, idomF b = some z ∧
        ∀ p ∈ processedPreds g idomF b, InChain idomF p z := by
    intro b hb hb0
    obtain ⟨p, hpe, hpr, _⟩ := hpar b hb hb0
    match hpp : processedPreds g idomF b with
    | [] =>
      have hpm : p ∈ processedPreds g idomF b := by
        rw [mem_processedPreds]
        exact ⟨⟨hlt p hpr, hpe⟩, hprocAll p hpr⟩
      rw [hpp] at hpm
      exact absurd hpm (List.not_mem_nil p)
    | p1 :: ps1 =>
      obtain ⟨z, hzint, hbz⟩ := heqs b (hall b (hlt b hb)) hb0 p1 ps1 hpp
      obtain ⟨hacc, hpsmem, _⟩ :=
        intersectAll_spec idomF (ComputeRPO g) (2 * g.n + 2) hinvF.2.1 ps1 p1 z hzint
      refine ⟨z, hbz, ?_⟩
      intro q hq
      rcases List.mem_cons.mp hq with rfl | hq2
      · exact hacc
      · exact hpsmem q hq2
  have hmain := idom_stable_correct g (ComputeRPO g) idomF hinvF hlt hprocAll hstab
  refine ⟨hinvF.1, ?_, ?_⟩
  · intro x hx
    match hx2 : idomF x with
    | none => rfl
    | some w =>
      have hs : (idomF x).isSome = true := by
        rw [hx2]
        rfl
      exact absurd (hinvF.2.2.1 x hs).1 hx
  · intro b hb hb0
    obtain ⟨z, hz, hdom, hzb, hclosest, hroot⟩ := hmain b hb hb0
    refine ⟨z, hz, hdom, hzb, hclosest, ?_, hroot⟩
    intro w hwd hwb hwclosest
    have h1 : Dom g w z := hclosest w hwd hwb
    have h2 : Dom g z w := hwclosest z hdom hzb
    exact dom_antisymm g w z h1 h2 (dom_reach g z b hdom hb)

theorem computeIDominators_correct_witness :
    0 < diamondGraph.n ∧
    ((ComputeIDominators diamondGraph 6).getD (fun _ => none)) 0 = none ∧
    Dom diamondGraph 0 3 := by
  have hrun : ComputeIDominators diamondGraph 6 =
      some ((ComputeIDominators diamondGraph 6).getD (fun _ => none)) := by rfl
  have h := computeIDominators_correct diamondGraph 6
    ((ComputeIDominators diamondGraph 6).getD (fun _ => none))
    (by decide) (by decide) hrun
  refine ⟨by decide, h.1, ?_⟩
  have hreach1 : Reach diamondGraph 0 1 := Reach.tail (Reach.refl 0) (by decide)
  have hreach3 : Reach diamondGraph 0 3 := Reach.tail hreach1 (by decide)
  obtain ⟨z, hz, hdom, _⟩ := h.2.2 3 hreach3 (by decide)
  have hz0 : ((ComputeIDominators diamondGraph 6).getD (fun _ => none)) 3 =
      some 0 := by rfl
  rw [hz0] at hz
  have hzz : (0 : Nat) = z := Option.some_inj.mp hz
  rw [← hzz] at hdom
  exact hdom
